import Mathlib

/-
  A Lean model of the Open Resource Discovery (ORD) metadata aggregation
  and validation engine of this repository, together with proofs of the
  properties its specification states.

  The repository ships the ORD data model as generated type declarations
  (dist/types/v1/Document.d.ts) and the aggregation behavior as
  specification text; the engine components (Merge Engine, Reference
  Resolver, Inheritance Propagator, Tombstone Processor, Lifecycle
  Enforcer, Document Parser/Validator) contain no code in the repository
  and are modelled here from that specification.  Enumerations, field
  names and key patterns are taken from Document.d.ts.
-/

set_option maxHeartbeats 1000000

/-- Remove duplicate values from a list, keeping the first occurrence of
each value; the accumulator holds the values already kept.  This models
the rule of Document.d.ts (Labels): duplicate values of the same label
key will be removed. -/

def dedupAux (seen : List String) : List String → List String
  | [] => []
  | x :: xs => if x ∈ seen then dedupAux seen xs else x :: dedupAux (x :: seen) xs

/-- Duplicate removal keeping first occurrences. -/
def dedupStr (l : List String) : List String := dedupAux [] l

/-- Union of two value lists with duplicates removed (set union on value,
not replace), as the specification prescribes for list-valued fields and
label values; source order is kept, first list first. -/
def dedupUnion (a b : List String) : List String := dedupStr (a ++ b)

/-! ### Labels

Generic labels (Document.d.ts, interface Labels): an open map from keys to
ordered lists of strings.  The merge rules recorded in Document.d.ts are:
values of the same label key are merged, and duplicate values of the same
label key are removed.  A label map is modelled as an association list. -/
/-- A label map: association list from label keys to value lists. -/
abbrev Labels := List (String × List String)

/-- Look up the value list of a label key (first matching entry). -/
def lookupLabel : Labels → String → Option (List String)
  | [], _ => none
  | (k1, v) :: t, k => if k1 = k then some v else lookupLabel t k

/-- Merge one labelled value list into a label map: values of the same
label key are merged and duplicates removed; a new key is appended with
its values deduplicated. -/
def insertLabel : Labels → String → List String → Labels
  | [], k, v => [(k, dedupStr v)]
  | (k1, v1) :: t, k, v =>
    if k1 = k then (k1, dedupUnion v1 v) :: t else (k1, v1) :: insertLabel t k v

/-- Key-wise union of two label maps, de-duplicated, as the Merge Engine
specification prescribes for label maps. -/
def mergeLabels (m e : Labels) : Labels :=
  e.foldl (fun acc p => insertLabel acc p.1 p.2) m

/-- Normalize a label map: fold it into the empty map. -/
def normLabels (e : Labels) : Labels := mergeLabels [] e

/-- A label key is present in a label map. -/
def hasKey (m : Labels) (k : String) : Prop := (lookupLabel m k).isSome = true

/-- A value is among the values stored for a label key. -/
def memLab (m : Labels) (k x : String) : Prop :=
  ∃ w, lookupLabel m k = some w ∧ x ∈ w

/-- All value lists stored in a label map are duplicate-free. -/
def ValLab (m : Labels) : Prop :=
  ∀ k w, lookupLabel m k = some w → w.Nodup

/-- Absorption certificate: the label map already contains every value
the pair (k, v) would contribute. -/
def AbsLab (m : Labels) (k : String) (v : List String) : Prop :=
  ∃ w, lookupLabel m k = some w ∧ w.Nodup ∧ (∀ x ∈ v, x ∈ w)

/-! ### ORD entities and the Merge Engine

Modelled from the spec: an ORD Entity (abstract capability; variants such
as APIResource, EventResource, Package, ...) identified by an ORD ID,
with one representative field per conflict class of the Merge Engine
(section 4.6): identity fields (ordId, kind), scalar descriptive fields
resolved last-writer-wins by crawl recency (title, releaseStatus,
partOfPackage, sunsetDate), the recency stamp lastUpdate (modelled as a
natural number timestamp), list fields resolved by union (tags,
countries, lineOfBusiness, industry, partOfProducts, successors), and
the label map.  The conflicted flag is engine bookkeeping for
cross-document consistency errors (section 7): an identity conflict
marks the entity conflicted and retains the previous good state. -/
/-- Release status of a resource, from Document.d.ts:
"active" | "beta" | "deprecated". -/
inductive ReleaseStatus where
  | active
  | beta
  | deprecated
deriving DecidableEq

/-- Modelled from the spec: one ORD entity fragment as handed to the
Merge Engine (validated, reference-resolved). -/
structure Entity where
  ordId : String
  kind : String
  title : String
  releaseStatus : ReleaseStatus
  partOfPackage : Option String
  sunsetDate : Option Nat
  lastUpdate : Nat
  tags : List String
  countries : List String
  lineOfBusiness : List String
  industry : List String
  partOfProducts : List String
  successors : List String
  labels : Labels
  conflicted : Bool
deriving DecidableEq

/-- Modelled from the spec: Merge Engine entity-level conflict
resolution (section 4.6).  Identity fields must match: a mismatched kind
for the same ordId is a consistency error, the entity is marked
conflicted and the previous good state is retained (section 7).
Scalar descriptive fields are last-writer-wins by crawl recency
(strictly newer lastUpdate wins); list fields are unioned with
duplicates removed; label maps are merged key-wise. -/
def mergeEntity (m e : Entity) : Entity :=
  if e.kind = m.kind then
    { ordId := m.ordId
      kind := m.kind
      title := if e.lastUpdate > m.lastUpdate then e.title else m.title
      releaseStatus :=
        if e.lastUpdate > m.lastUpdate then e.releaseStatus else m.releaseStatus
      partOfPackage :=
        if e.lastUpdate > m.lastUpdate then e.partOfPackage else m.partOfPackage
      sunsetDate := if e.lastUpdate > m.lastUpdate then e.sunsetDate else m.sunsetDate
      lastUpdate := max m.lastUpdate e.lastUpdate
      tags := dedupUnion m.tags e.tags
      countries := dedupUnion m.countries e.countries
      lineOfBusiness := dedupUnion m.lineOfBusiness e.lineOfBusiness
      industry := dedupUnion m.industry e.industry
      partOfProducts := dedupUnion m.partOfProducts e.partOfProducts
      successors := dedupUnion m.successors e.successors
      labels := mergeLabels m.labels e.labels
      conflicted := m.conflicted }
  else
    { m with conflicted := true }

/-- Modelled from the spec: admission of a fresh entity into the graph.
List values and label values are deduplicated (the merged graph keeps
set semantics for list fields), and the engine-owned conflicted flag
starts clear. -/
def dedupEntity (e : Entity) : Entity :=
  { e with
    tags := dedupStr e.tags
    countries := dedupStr e.countries
    lineOfBusiness := dedupStr e.lineOfBusiness
    industry := dedupStr e.industry
    partOfProducts := dedupStr e.partOfProducts
    successors := dedupStr e.successors
    labels := normLabels e.labels
    conflicted := false }

/-- Normal form of a graph-resident entity: list fields duplicate-free
and label values duplicate-free. -/
def NormE (m : Entity) : Prop :=
  m.tags.Nodup ∧ m.countries.Nodup ∧ m.lineOfBusiness.Nodup ∧
  m.industry.Nodup ∧ m.partOfProducts.Nodup ∧ m.successors.Nodup ∧
  ValLab m.labels

/-- Absorption certificate: the graph-resident entity m already carries
all information the incoming fragment e would contribute, so merging e
into m changes nothing. -/
def AbsorbsE (m e : Entity) : Prop :=
  (e.kind = m.kind →
    e.lastUpdate ≤ m.lastUpdate ∧
    (∀ x ∈ e.tags, x ∈ m.tags) ∧
    (∀ x ∈ e.countries, x ∈ m.countries) ∧
    (∀ x ∈ e.lineOfBusiness, x ∈ m.lineOfBusiness) ∧
    (∀ x ∈ e.industry, x ∈ m.industry) ∧
    (∀ x ∈ e.partOfProducts, x ∈ m.partOfProducts) ∧
    (∀ x ∈ e.successors, x ∈ m.successors) ∧
    (∀ p ∈ e.labels, AbsLab m.labels p.1 p.2)) ∧
  (e.kind ≠ m.kind → m.conflicted = true)

/-! ### The merged graph

Modelled from the spec: the Merge Engine owns one unified graph in which
each ORD ID resolves to exactly one logical entity.  The graph is an
association list of entities keyed by ordId; applying a fragment either
reconciles it into the existing entity with the same ordId or admits it
as a new entity. -/
/-- Look up the entity stored for an ORD ID. -/
def lookupGraph : List Entity → String → Option Entity
  | [], _ => none
  | m :: t, x => if m.ordId = x then some m else lookupGraph t x

/-- Modelled from the spec: apply one validated entity fragment to the
graph.  A redescription of an existing ORD ID is reconciled by the Merge
Engine conflict rules; a new ORD ID is admitted as a fresh entity. -/
def insertEntity (g : List Entity) (e : Entity) : List Entity :=
  match lookupGraph g e.ordId with
  | some _ => g.map (fun m => if m.ordId = e.ordId then mergeEntity m e else m)
  | none => g ++ [dedupEntity e]

/-- Modelled from the spec: merge a batch of entity fragments, in order,
into the graph. -/
def applyEntities (g : List Entity) (batch : List Entity) : List Entity :=
  batch.foldl insertEntity g

/-- All graph-resident entities are in normal form. -/
def NormG (g : List Entity) : Prop := ∀ m ∈ g, NormE m

/-- Each ORD ID occurs at most once in the graph. -/
def KeysOk (g : List Entity) : Prop := (g.map Entity.ordId).Nodup

/-- Graph invariant maintained by the Merge Engine. -/
def GoodG (g : List Entity) : Prop := NormG g ∧ KeysOk g

/-- The graph already absorbs a fragment: the entity stored under the
fragment's ORD ID carries all of its information. -/
def AbsG (g : List Entity) (e : Entity) : Prop :=
  ∃ m, lookupGraph g e.ordId = some m ∧ AbsorbsE m e

/-! ### ORD documents and the document-set merge -/
/-- A tombstone, from Document.d.ts (interface Tombstone): the ORD ID of
the removed resource or taxonomy, the removal date (modelled as a
natural number timestamp) and an optional description. -/
structure Tombstone where
  ordId : String
  removalDate : Nat
  description : Option String
deriving DecidableEq

/-- Modelled from the spec: a validated ORD document as handed to the
aggregation pipeline, carrying the entity fragments it describes (the
apiResources, eventResources, packages, ... arrays flattened) and its
tombstones array. -/
structure ORDDoc where
  entities : List Entity
  tombstones : List Tombstone
deriving DecidableEq

/-- All entity fragments of a document set, in document order. -/
def docsEntities : List ORDDoc → List Entity
  | [] => []
  | d :: t => d.entities ++ docsEntities t

/-- Modelled from the spec: the Merge Engine combines all validated
fragments of a document set, document by document, into the graph. -/
def mergeDocuments (g : List Entity) (docs : List ORDDoc) : List Entity :=
  docs.foldl (fun acc d => applyEntities acc d.entities) g

/-! ### Extensional graph equivalence

The specification treats list fields of merged entities as sets (section
4.6: set/list fields are unioned) and label maps as key-to-value-set
maps.  Two graphs are equivalent when they store the same entities by
ORD ID, with equal identity and scalar fields and with the same
membership of every list field and of every label key and value. -/
/-- Key-set and value-membership equivalence of label maps. -/
def LabEquiv (m1 m2 : Labels) : Prop :=
  (∀ k, hasKey m1 k ↔ hasKey m2 k) ∧ (∀ k x, memLab m1 k x ↔ memLab m2 k x)

/-- Equivalence of entities: identity, scalar and bookkeeping fields are
equal; list fields and label maps agree as sets. -/
def EquivE (a b : Entity) : Prop :=
  a.ordId = b.ordId ∧ a.kind = b.kind ∧ a.title = b.title ∧
  a.releaseStatus = b.releaseStatus ∧ a.partOfPackage = b.partOfPackage ∧
  a.sunsetDate = b.sunsetDate ∧ a.lastUpdate = b.lastUpdate ∧
  (∀ x, x ∈ a.tags ↔ x ∈ b.tags) ∧
  (∀ x, x ∈ a.countries ↔ x ∈ b.countries) ∧
  (∀ x, x ∈ a.lineOfBusiness ↔ x ∈ b.lineOfBusiness) ∧
  (∀ x, x ∈ a.industry ↔ x ∈ b.industry) ∧
  (∀ x, x ∈ a.partOfProducts ↔ x ∈ b.partOfProducts) ∧
  (∀ x, x ∈ a.successors ↔ x ∈ b.successors) ∧
  LabEquiv a.labels b.labels ∧ a.conflicted = b.conflicted

/-- Equivalence of optional lookup results. -/
def OptEquivE : Option Entity → Option Entity → Prop
  | none, none => True
  | some a, some b => EquivE a b
  | _, _ => False

/-- Extensional equivalence of graphs: every ORD ID resolves to
equivalent entities (or to none in both). -/
def EquivG (g1 g2 : List Entity) : Prop :=
  ∀ x, OptEquivE (lookupGraph g1 x) (lookupGraph g2 x)

/-- Two fragments are order-compatible when they either describe
different entities, or describe the same ORD ID with the same entity
type and distinct lastUpdate stamps, so that last-writer-wins is
decisive and the recency tiebreak never has to distinguish an order. -/
def compat (e1 e2 : Entity) : Prop :=
  e1.ordId = e2.ordId → (e1.kind = e2.kind ∧ e1.lastUpdate ≠ e2.lastUpdate)

instance (e1 e2 : Entity) : Decidable (compat e1 e2) := by
  unfold compat
  infer_instance

/-- A concrete API resource fragment used in examples. -/
def exEntity : Entity :=
  { ordId := "ns:apiResource:x:v1"
    kind := "apiResource"
    title := "X"
    releaseStatus := ReleaseStatus.active
    partOfPackage := some "ns:package:p:v1"
    sunsetDate := none
    lastUpdate := 5
    tags := []
    countries := []
    lineOfBusiness := []
    industry := []
    partOfProducts := []
    successors := []
    labels := []
    conflicted := false }

/-- Provider-batch fragment: title A, crawled at time 5. -/
def c8eA1 : Entity := { exEntity with title := "A", lastUpdate := 5 }

/-- Provider-batch fragment: same ordId, conflicting entity type. -/
def c8eA2 : Entity :=
  { exEntity with kind := "eventResource", title := "B", lastUpdate := 7 }

/-- Provider-batch fragment: tag a, crawled at time 5. -/
def c8eB1 : Entity := { exEntity with tags := ["a"], lastUpdate := 5 }

/-- Provider-batch fragment: tag b, crawled at time 7. -/
def c8eB2 : Entity := { exEntity with tags := ["b"], lastUpdate := 7 }

/-- Document fragment with labels mapping k to [x]. -/
def c2e1 : Entity := { exEntity with labels := [("k", ["x"])] }

/-- Document fragment redescribing the same entity with labels mapping
k to [y, x]. -/
def c2e2 : Entity :=
  { exEntity with labels := [("k", ["y", "x"])], lastUpdate := 6 }

/-! ### Inheritance Propagator

Modelled from the spec (section 4.3): for list-valued inherited fields
(tags, countries, lineOfBusiness, industry, partOfProducts) the
effective value of a resource is the union of the owning Package's
declared value and the resource-declared value, deduplicated. -/
/-- Effective tags of a resource contained in a package. -/
def effectiveTags (pkg res : Entity) : List String :=
  dedupUnion pkg.tags res.tags

/-- Effective countries of a resource contained in a package. -/
def effectiveCountries (pkg res : Entity) : List String :=
  dedupUnion pkg.countries res.countries

/-- Effective lineOfBusiness of a resource contained in a package. -/
def effectiveLineOfBusiness (pkg res : Entity) : List String :=
  dedupUnion pkg.lineOfBusiness res.lineOfBusiness

/-- Effective industry of a resource contained in a package. -/
def effectiveIndustry (pkg res : Entity) : List String :=
  dedupUnion pkg.industry res.industry

/-- Effective partOfProducts of a resource contained in a package. -/
def effectivePartOfProducts (pkg res : Entity) : List String :=
  dedupUnion pkg.partOfProducts res.partOfProducts

/-- The Package with tags [a] of the concrete inheritance example. -/
def c3pkg : Entity :=
  { exEntity with ordId := "ns:package:p:v1", kind := "package", tags := ["a"] }

/-- The contained resource with tags [b] of the concrete example. -/
def c3res : Entity := { exEntity with tags := ["b"] }

/-! ### Lifecycle Enforcer

Modelled from the spec (sections 4.4, 7 and 8): an entity with
releaseStatus deprecated must carry a sunsetDate, and, when a successor
exists, populated successors; violations are flagged as non-fatal
LifecycleWarning values, not silently accepted. -/
/-- Non-fatal lifecycle policy deviations (spec section 7). -/
inductive LifecycleWarning where
  | missingSunsetDate
  | missingSuccessors
deriving DecidableEq

/-- Modelled from the spec: the Lifecycle Enforcer check of one entity.
The flag successorExists records whether a successor of the entity is
known to exist (spec: successors MUST be provided if one exists). -/
def lifecycleCheck (successorExists : Bool) (e : Entity) : List LifecycleWarning :=
  (if e.releaseStatus = ReleaseStatus.deprecated ∧ e.sunsetDate = none then
    [LifecycleWarning.missingSunsetDate]
  else []) ++
  (if e.releaseStatus = ReleaseStatus.deprecated ∧ successorExists = true ∧
      e.successors = [] then
    [LifecycleWarning.missingSuccessors]
  else [])

/-- A deprecated entity that carries no sunsetDate. -/
def c5e : Entity :=
  { exEntity with releaseStatus := ReleaseStatus.deprecated, sunsetDate := none }

/-! ### Reference Resolver

Modelled from the spec (sections 4.2 and 7): references are resolved
against the in-progress merged graph plus the current batch (two-pass:
the batch's own ordIds are registered first); an unresolved mandatory
partOfPackage reference is a hard ReferenceError for the referencing
entity and is retried on a later crawl in case the target arrives
later. -/
/-- Result of resolving the mandatory partOfPackage reference. -/
inductive ResolutionResult where
  | resolved
  | referenceError (target : String)
deriving DecidableEq

/-- The ORD IDs registered in a graph or batch. -/
def graphOrdIds (g : List Entity) : List String := g.map Entity.ordId

/-- Modelled from the spec: resolve the mandatory partOfPackage
reference of a resource against the merged graph plus the incoming
batch's registered ordIds. -/
def resolvePartOfPackage (g batch : List Entity) (r : Entity) : ResolutionResult :=
  match r.partOfPackage with
  | none => ResolutionResult.resolved
  | some p =>
    if p ∈ graphOrdIds g ∨ p ∈ graphOrdIds batch then ResolutionResult.resolved
    else ResolutionResult.referenceError p

/-! ### Tombstone Processor and Query Facade

Modelled from the spec (sections 4.5 and 6): applying a Tombstone marks
the target ordId as suppressed; suppressed entities are excluded from
the Query Facade's default view but retained internally.  If a document
still redescribes a tombstoned ordId in a later crawl, the tombstone is
cancelled and the entity becomes active again (republish wins). -/
/-- Modelled from the spec: the aggregator state the Merge Engine and
Tombstone Processor maintain - the merged graph plus the retained
tombstones. -/
structure AggState where
  graph : List Entity
  tombstones : List Tombstone
deriving DecidableEq

/-- Modelled from the spec: apply one tombstone, suppressing its ordId
(keyed by ordId: a newer tombstone for the same ordId replaces the
retained one). -/
def applyTombstone (s : AggState) (t : Tombstone) : AggState :=
  { s with tombstones := s.tombstones.filter (fun tb => tb.ordId != t.ordId) ++ [t] }

/-- A document redescribes an ordId when one of its entities carries it. -/
def redescribes (d : ORDDoc) (x : String) : Bool :=
  d.entities.any (fun e => e.ordId == x)

/-- Modelled from the spec: process one crawled document - merge its
entities into the graph, cancel retained tombstones whose ordId the
document redescribes (republish wins), then apply the document's own
tombstones. -/
def applyDocToState (s : AggState) (d : ORDDoc) : AggState :=
  d.tombstones.foldl applyTombstone
    { graph := applyEntities s.graph d.entities
      tombstones := s.tombstones.filter (fun tb => !(redescribes d tb.ordId)) }

/-- Modelled from the spec: the Query Facade's default view - the
merged graph with tombstoned entities excluded. -/
def defaultView (s : AggState) : List Entity :=
  s.graph.filter (fun m => !(s.tombstones.any (fun tb => tb.ordId == m.ordId)))

/-- An ordId is active when the default view still resolves it. -/
def isActive (s : AggState) (x : String) : Bool :=
  (defaultView s).any (fun m => m.ordId == x)

/-- A tombstone for the concrete API resource. -/
def c4t : Tombstone :=
  { ordId := "ns:apiResource:x:v1", removalDate := 100, description := none }

/-! ### Document Parser/Validator: custom companion fields

The enumerations are taken from Document.d.ts (interfaces
AccessStrategy and APIResourceDefinition); the validator behavior is
modelled from the spec (section 4.1): a customType MUST be present iff
the paired enum is custom, and MUST be absent otherwise. -/
/-- Access strategy types, from Document.d.ts:
"open" | "sap:cmp-mtls:v1" | "sap.businesshub:basic-auth:v1" | "custom". -/
inductive AccessStrategyType where
  | open_
  | sap_cmp_mtls_v1
  | sap_businesshub_basic_auth_v1
  | custom
deriving DecidableEq

/-- AccessStrategy, from Document.d.ts: type, optional customType
(MUST only be provided if type is custom), optional customDescription. -/
structure AccessStrategy where
  type : AccessStrategyType
  customType : Option String
  customDescription : Option String
deriving DecidableEq

/-- API resource definition types, from Document.d.ts: "openapi-v2" |
"openapi-v3" | "raml-v1" | "edmx" | "csdl-json" | "graphql-sdl" |
"wsdl-v1" | "wsdl-v2" | "sap-rfc-metadata-v1" |
"sap-sql-api-definition-v1" | "custom". -/
inductive APIResourceDefinitionType where
  | openapi_v2
  | openapi_v3
  | raml_v1
  | edmx
  | csdl_json
  | graphql_sdl
  | wsdl_v1
  | wsdl_v2
  | sap_rfc_metadata_v1
  | sap_sql_api_definition_v1
  | custom
deriving DecidableEq

/-- Media types of definition serialization formats, from
Document.d.ts. -/
inductive MediaType where
  | application_json
  | application_xml
  | text_yaml
  | text_plain
  | application_octet_stream
deriving DecidableEq

/-- APIResourceDefinition, from Document.d.ts: type, optional
customType, mediaType, url, and at least one access strategy. -/
structure APIResourceDefinition where
  type : APIResourceDefinitionType
  customType : Option String
  mediaType : MediaType
  url : String
  accessStrategies : List AccessStrategy
deriving DecidableEq

/-- The access strategy type is the custom one. -/
def isCustomAccessStrategyType : AccessStrategyType → Bool
  | AccessStrategyType.custom => true
  | _ => false

/-- The definition type is the custom one. -/
def isCustomAPIResourceDefinitionType : APIResourceDefinitionType → Bool
  | APIResourceDefinitionType.custom => true
  | _ => false

/-- Modelled from the spec: the custom companion-field rule of the
Document Parser/Validator (section 4.1) - the customType companion is
present iff the paired enum value is the custom one. -/
def companionRuleOk (isCustom : Bool) (customType : Option String) : Bool :=
  if isCustom then customType.isSome else customType.isNone

/-- Modelled from the spec: validate one AccessStrategy - the
customType companion rule, and customDescription only for custom. -/
def validateAccessStrategy (a : AccessStrategy) : Bool :=
  companionRuleOk (isCustomAccessStrategyType a.type) a.customType &&
  (isCustomAccessStrategyType a.type || a.customDescription.isNone)

/-- Modelled from the spec: validate one APIResourceDefinition - the
customType companion rule, at least one access strategy, and valid
access strategies. -/
def validateAPIResourceDefinition (d : APIResourceDefinition) : Bool :=
  companionRuleOk (isCustomAPIResourceDefinitionType d.type) d.customType &&
  !(d.accessStrategies.isEmpty) &&
  d.accessStrategies.all validateAccessStrategy

/-- A custom access strategy with its companion fields. -/
def c6a : AccessStrategy :=
  { type := AccessStrategyType.custom
    customType := some "sap.foo:open-zone-id:v1"
    customDescription := some "custom access" }

/-- An openapi-v3 resource definition with an open access strategy. -/
def c6d : APIResourceDefinition :=
  { type := APIResourceDefinitionType.openapi_v3
    customType := none
    mediaType := MediaType.application_json
    url := "/crm/v1/openapi/oas3.json"
    accessStrategies := [{ type := AccessStrategyType.open_
                           customType := none
                           customDescription := none }] }

/-! ### Label key patterns

From Document.d.ts: the JSON-Schema patternProperty for Labels keys is
the character class ^[a-zA-Z0-9-_.]*$, while for DocumentationLabels it
is ^.*$ - under ECMA regular-expression semantics the dot matches every
character except a line terminator (LF, CR, U+2028, U+2029), matching
the prose in Document.d.ts that a documentation label key MUST not
contain line breaks. -/
/-- A character allowed by the Labels key pattern [a-zA-Z0-9-_.]
(Document.d.ts, Labels patternProperty). -/
def isLabelsKeyChar (c : Char) : Bool :=
  (decide (97 ≤ c.toNat) && decide (c.toNat ≤ 122)) ||
  (decide (65 ≤ c.toNat) && decide (c.toNat ≤ 90)) ||
  (decide (48 ≤ c.toNat) && decide (c.toNat ≤ 57)) ||
  c == '-' || c == '_' || c == '.'

/-- The whole key matches the anchored Labels pattern
^[a-zA-Z0-9-_.]*$. -/
def labelsKeyMatches (s : String) : Bool := s.data.all isLabelsKeyChar

/-- An ECMA line terminator: LF, CR, U+2028 or U+2029. -/
def isLineTerminator (c : Char) : Bool :=
  c.toNat == 10 || c.toNat == 13 || c.toNat == 8232 || c.toNat == 8233

/-- The whole key matches the anchored DocumentationLabels pattern
^.*$ (every character except a line terminator). -/
def documentationLabelsKeyMatches (s : String) : Bool :=
  s.data.all (fun c => !(isLineTerminator c))

/-! ### Declared specification version

From Document.d.ts (ORDDocument.openResourceDiscovery): the version of
the Open Resource Discovery specification used to describe a document
is one of exactly the strings "1.0" ... "1.7"; the Document
Parser/Validator (modelled from spec section 4.1, enum-domain
membership for closed fields) rejects a document declaring any other
version string. -/
/-- The raw top-level version declaration of an ORD document, before
enum-domain validation. -/
structure ORDDocumentHeader where
  openResourceDiscovery : String
deriving DecidableEq

/-- The closed enum domain of openResourceDiscovery, from
Document.d.ts. -/
def allowedSpecVersions : List String :=
  ["1.0", "1.1", "1.2", "1.3", "1.4", "1.5", "1.6", "1.7"]

/-- Modelled from the spec: the Document Parser/Validator accepts the
declared openResourceDiscovery version only if it is in the closed enum
domain. -/
def specVersionAccepted (d : ORDDocumentHeader) : Bool :=
  allowedSpecVersions.contains d.openResourceDiscovery

theorem mem_dedupAux (l : List String) :
    ∀ (s : List String) (x : String), x ∈ dedupAux s l ↔ (x ∈ l ∧ x ∉ s) := by
  induction l with
  | nil => intro s x; simp [dedupAux]
  | cons a t ih =>
    intro s x
    simp only [dedupAux]
    by_cases h : a ∈ s
    · rw [if_pos h, ih s x, List.mem_cons]
      constructor
      · rintro ⟨hx, hs⟩; exact ⟨Or.inr hx, hs⟩
      · rintro ⟨hx | hx, hs⟩
        · exact absurd (hx ▸ h) hs
        · exact ⟨hx, hs⟩
    · rw [if_neg h, List.mem_cons, List.mem_cons, ih (a :: s) x]
      constructor
      · rintro (rfl | ⟨hx, hs⟩)
        · exact ⟨Or.inl rfl, h⟩
        · refine ⟨Or.inr hx, fun hc => hs (List.mem_cons.mpr (Or.inr hc))⟩
      · rintro ⟨rfl | hx, hs⟩
        · exact Or.inl rfl
        · by_cases hxa : x = a
          · exact Or.inl hxa
          · exact Or.inr ⟨hx, fun hc => by
              rcases List.mem_cons.mp hc with h1 | h1
              · exact hxa h1
              · exact hs h1⟩

theorem nodup_dedupAux (l : List String) :
    ∀ s : List String, (dedupAux s l).Nodup := by
  induction l with
  | nil => intro s; simp [dedupAux]
  | cons a t ih =>
    intro s
    simp only [dedupAux]
    by_cases h : a ∈ s
    · rw [if_pos h]; exact ih s
    · rw [if_neg h]
      refine List.nodup_cons.mpr ⟨?_, ih (a :: s)⟩
      intro hc
      exact ((mem_dedupAux t (a :: s) a).mp hc).2 (List.mem_cons.mpr (Or.inl rfl))

theorem dedupAux_nil_of_subset (l : List String) :
    ∀ s : List String, (∀ x ∈ l, x ∈ s) → dedupAux s l = [] := by
  induction l with
  | nil => intro s _; rfl
  | cons a t ih =>
    intro s h
    simp only [dedupAux]
    rw [if_pos (h a (List.mem_cons.mpr (Or.inl rfl)))]
    exact ih s (fun x hx => h x (List.mem_cons.mpr (Or.inr hx)))

theorem dedupAux_absorb (l1 : List String) :
    ∀ (s l2 : List String), l1.Nodup → (∀ x ∈ l1, x ∉ s) →
      (∀ x ∈ l2, x ∈ l1 ∨ x ∈ s) → dedupAux s (l1 ++ l2) = l1 := by
  induction l1 with
  | nil =>
    intro s l2 _ _ h2
    simp only [List.nil_append]
    exact dedupAux_nil_of_subset l2 s (fun x hx => by
      rcases h2 x hx with h | h
      · exact absurd h (List.not_mem_nil x)
      · exact h)
  | cons a t ih =>
    intro s l2 hnd hns h2
    have hns2 : a ∉ s := hns a (List.mem_cons.mpr (Or.inl rfl))
    have hndt : t.Nodup := (List.nodup_cons.mp hnd).2
    have hat : a ∉ t := (List.nodup_cons.mp hnd).1
    show dedupAux s (a :: (t ++ l2)) = a :: t
    simp only [dedupAux]
    rw [if_neg hns2]
    have hrec : dedupAux (a :: s) (t ++ l2) = t := by
      refine ih (a :: s) l2 hndt ?_ ?_
      · intro x hx hc
        rcases List.mem_cons.mp hc with h3 | h3
        · exact hat (h3 ▸ hx)
        · exact hns x (List.mem_cons.mpr (Or.inr hx)) h3
      · intro x hx
        rcases h2 x hx with h3 | h3
        · rcases List.mem_cons.mp h3 with h4 | h4
          · exact Or.inr (List.mem_cons.mpr (Or.inl h4))
          · exact Or.inl h4
        · exact Or.inr (List.mem_cons.mpr (Or.inr h3))
    rw [hrec]

theorem mem_dedupStr (l : List String) (x : String) : x ∈ dedupStr l ↔ x ∈ l := by
  rw [dedupStr, mem_dedupAux]
  exact ⟨fun h => h.1, fun h => ⟨h, List.not_mem_nil x⟩⟩

theorem nodup_dedupStr (l : List String) : (dedupStr l).Nodup := nodup_dedupAux l []

theorem mem_dedupUnion (a b : List String) (x : String) :
    x ∈ dedupUnion a b ↔ (x ∈ a ∨ x ∈ b) := by
  rw [dedupUnion, mem_dedupStr, List.mem_append]

theorem nodup_dedupUnion (a b : List String) : (dedupUnion a b).Nodup :=
  nodup_dedupStr (a ++ b)

theorem dedupUnion_absorb (a b : List String) (hnd : a.Nodup)
    (hsub : ∀ x ∈ b, x ∈ a) : dedupUnion a b = a := by
  rw [dedupUnion, dedupStr]
  exact dedupAux_absorb a [] b hnd (fun x _ => List.not_mem_nil x)
    (fun x hx => Or.inl (hsub x hx))

theorem dedupStr_of_nodup (l : List String) (hnd : l.Nodup) : dedupStr l = l := by
  have h := dedupUnion_absorb l [] hnd (fun x hx => absurd hx (List.not_mem_nil x))
  rwa [dedupUnion, List.append_nil] at h

theorem lookupLabel_insertLabel (m : Labels) :
    ∀ (k k1 : String) (v : List String),
      lookupLabel (insertLabel m k v) k1 =
        if k1 = k then
          (match lookupLabel m k with
           | some v0 => some (dedupUnion v0 v)
           | none => some (dedupStr v))
        else lookupLabel m k1 := by
  induction m with
  | nil =>
    intro k k1 v
    simp only [insertLabel, lookupLabel]
    by_cases h : k1 = k
    · subst h
      simp
    · rw [if_neg (fun hc : k = k1 => h hc.symm), if_neg h]
  | cons p t ih =>
    intro k k1 v
    obtain ⟨k2, v2⟩ := p
    simp only [insertLabel]
    by_cases h2 : k2 = k
    · subst h2
      rw [if_pos rfl]
      by_cases h1 : k1 = k2
      · subst h1
        simp [lookupLabel]
      · simp only [lookupLabel, if_neg (fun hc : k2 = k1 => h1 hc.symm), if_neg h1]
    · rw [if_neg h2]
      by_cases h1 : k1 = k2
      · have hk : ¬ k1 = k := fun hc => h2 (h1.symm.trans hc)
        simp only [lookupLabel, if_pos h1.symm, if_neg hk]
      · simp only [lookupLabel, if_neg (fun hc : k2 = k1 => h1 hc.symm), if_neg h2]
        rw [ih k k1 v]

theorem hasKey_insertLabel (m : Labels) (k k1 : String) (v : List String) :
    hasKey (insertLabel m k v) k1 ↔ (k1 = k ∨ hasKey m k1) := by
  unfold hasKey
  rw [lookupLabel_insertLabel]
  by_cases h : k1 = k
  · rw [if_pos h]
    cases hm : lookupLabel m k <;> simp [h]
  · rw [if_neg h]
    simp [h]

theorem memLab_insertLabel (m : Labels) (k k1 x : String) (v : List String) :
    memLab (insertLabel m k v) k1 x ↔ (memLab m k1 x ∨ (k1 = k ∧ x ∈ v)) := by
  unfold memLab
  rw [lookupLabel_insertLabel]
  by_cases h : k1 = k
  · rw [if_pos h]
    cases hm : lookupLabel m k with
    | none =>
      constructor
      · rintro ⟨w, hw, hx⟩
        have hww : dedupStr v = w := Option.some.inj hw
        subst hww
        exact Or.inr ⟨h, (mem_dedupStr v x).mp hx⟩
      · rintro (⟨w, hw, hx⟩ | ⟨_, hx⟩)
        · rw [h, hm] at hw
          exact absurd hw (by simp)
        · exact ⟨dedupStr v, rfl, (mem_dedupStr v x).mpr hx⟩
    | some v0 =>
      constructor
      · rintro ⟨w, hw, hx⟩
        have hww : dedupUnion v0 v = w := Option.some.inj hw
        subst hww
        rcases (mem_dedupUnion v0 v x).mp hx with h1 | h1
        · exact Or.inl ⟨v0, by rw [h, hm], h1⟩
        · exact Or.inr ⟨h, h1⟩
      · rintro (⟨w, hw, hx⟩ | ⟨_, hx⟩)
        · rw [h, hm] at hw
          have hvw : v0 = w := Option.some.inj hw
          subst hvw
          exact ⟨dedupUnion v0 v, rfl, (mem_dedupUnion v0 v x).mpr (Or.inl hx)⟩
        · exact ⟨dedupUnion v0 v, rfl, (mem_dedupUnion v0 v x).mpr (Or.inr hx)⟩
  · rw [if_neg h]
    constructor
    · rintro ⟨w, hw, hx⟩
      exact Or.inl ⟨w, hw, hx⟩
    · rintro (⟨w, hw, hx⟩ | ⟨hk, _⟩)
      · exact ⟨w, hw, hx⟩
      · exact absurd hk h

theorem ValLab_insertLabel (m : Labels) (k : String) (v : List String)
    (hv : ValLab m) : ValLab (insertLabel m k v) := by
  intro k1 w hw
  rw [lookupLabel_insertLabel] at hw
  by_cases h : k1 = k
  · rw [if_pos h] at hw
    cases hm : lookupLabel m k with
    | none =>
      rw [hm] at hw
      obtain rfl : dedupStr v = w := Option.some.inj hw
      exact nodup_dedupStr v
    | some v0 =>
      rw [hm] at hw
      obtain rfl : dedupUnion v0 v = w := Option.some.inj hw
      exact nodup_dedupUnion v0 v
  · rw [if_neg h] at hw
    exact hv k1 w hw

theorem ValLab_nil : ValLab [] := by
  intro k w hw
  simp [lookupLabel] at hw

theorem mergeLabels_nil (m : Labels) : mergeLabels m [] = m := rfl

theorem mergeLabels_cons (m : Labels) (p : String × List String) (t : Labels) :
    mergeLabels m (p :: t) = mergeLabels (insertLabel m p.1 p.2) t := rfl

theorem hasKey_mergeLabels (e : Labels) :
    ∀ (m : Labels) (k : String),
      hasKey (mergeLabels m e) k ↔ (hasKey m k ∨ ∃ v, (k, v) ∈ e) := by
  induction e with
  | nil => intro m k; simp [mergeLabels_nil]
  | cons p t ih =>
    intro m k
    rw [mergeLabels_cons, ih]
    rw [hasKey_insertLabel]
    constructor
    · rintro ((rfl | h) | h)
      · exact Or.inr ⟨p.2, List.mem_cons.mpr (Or.inl rfl)⟩
      · exact Or.inl h
      · obtain ⟨v, hv⟩ := h
        exact Or.inr ⟨v, List.mem_cons.mpr (Or.inr hv)⟩
    · rintro (h | ⟨v, hv⟩)
      · exact Or.inl (Or.inr h)
      · rcases List.mem_cons.mp hv with h1 | h1
        · exact Or.inl (Or.inl (congrArg Prod.fst h1))
        · exact Or.inr ⟨v, h1⟩

theorem memLab_mergeLabels (e : Labels) :
    ∀ (m : Labels) (k x : String),
      memLab (mergeLabels m e) k x ↔ (memLab m k x ∨ ∃ v, (k, v) ∈ e ∧ x ∈ v) := by
  induction e with
  | nil => intro m k x; simp [mergeLabels_nil]
  | cons p t ih =>
    intro m k x
    rw [mergeLabels_cons, ih, memLab_insertLabel]
    constructor
    · rintro ((h | ⟨rfl, hx⟩) | ⟨v, hv, hx⟩)
      · exact Or.inl h
      · exact Or.inr ⟨p.2, List.mem_cons.mpr (Or.inl rfl), hx⟩
      · exact Or.inr ⟨v, List.mem_cons.mpr (Or.inr hv), hx⟩
    · rintro (h | ⟨v, hv, hx⟩)
      · exact Or.inl (Or.inl h)
      · rcases List.mem_cons.mp hv with h1 | h1
        · have hk : k = p.1 := congrArg Prod.fst h1
          have hv2 : v = p.2 := congrArg Prod.snd h1
          exact Or.inl (Or.inr ⟨hk, hv2 ▸ hx⟩)
        · exact Or.inr ⟨v, h1, hx⟩

theorem ValLab_mergeLabels (e : Labels) :
    ∀ m : Labels, ValLab m → ValLab (mergeLabels m e) := by
  induction e with
  | nil => intro m hm; exact hm
  | cons p t ih =>
    intro m hm
    rw [mergeLabels_cons]
    exact ih _ (ValLab_insertLabel m p.1 p.2 hm)

theorem insertLabel_absorb (m : Labels) :
    ∀ (k : String) (v w : List String), lookupLabel m k = some w → w.Nodup →
      (∀ x ∈ v, x ∈ w) → insertLabel m k v = m := by
  induction m with
  | nil => intro k v w hw; simp [lookupLabel] at hw
  | cons p t ih =>
    intro k v w hw hnd hsub
    obtain ⟨k1, v1⟩ := p
    simp only [lookupLabel] at hw
    by_cases h : k1 = k
    · rw [if_pos h] at hw
      obtain rfl : v1 = w := Option.some.inj hw
      simp only [insertLabel, if_pos h]
      rw [dedupUnion_absorb v1 v hnd hsub]
    · rw [if_neg h] at hw
      simp only [insertLabel, if_neg h]
      rw [ih k v w hw hnd hsub]

theorem mergeLabels_absorb (e : Labels) :
    ∀ m : Labels, (∀ p ∈ e, AbsLab m p.1 p.2) → mergeLabels m e = m := by
  induction e with
  | nil => intro m _; rfl
  | cons p t ih =>
    intro m habs
    obtain ⟨w, hw, hnd, hsub⟩ := habs p (List.mem_cons.mpr (Or.inl rfl))
    rw [mergeLabels_cons, insertLabel_absorb m p.1 p.2 w hw hnd hsub]
    exact ih m (fun q hq => habs q (List.mem_cons.mpr (Or.inr hq)))

theorem memLab_of_lookup (m : Labels) (k x : String) (w : List String)
    (hw : lookupLabel m k = some w) : x ∈ w ↔ memLab m k x := by
  constructor
  · intro hx; exact ⟨w, hw, hx⟩
  · rintro ⟨w1, hw1, hx⟩
    obtain rfl : w = w1 := Option.some.inj (hw ▸ hw1)
    exact hx

theorem mergeLabels_absorbs_self (m e : Labels) (hm : ValLab m) :
    ∀ p ∈ e, AbsLab (mergeLabels m e) p.1 p.2 := by
  intro p hp
  have hkey : hasKey (mergeLabels m e) p.1 :=
    (hasKey_mergeLabels e m p.1).mpr (Or.inr ⟨p.2, hp⟩)
  unfold hasKey at hkey
  obtain ⟨w, hw⟩ := Option.isSome_iff_exists.mp hkey
  refine ⟨w, hw, ValLab_mergeLabels e m hm p.1 w hw, ?_⟩
  intro x hx
  have hmem : memLab (mergeLabels m e) p.1 x :=
    (memLab_mergeLabels e m p.1 x).mpr (Or.inr ⟨p.2, hp, hx⟩)
  exact (memLab_of_lookup _ _ _ _ hw).mpr hmem

theorem AbsLab_mono (m e : Labels) (k : String) (v : List String)
    (hm : ValLab m) (h : AbsLab m k v) : AbsLab (mergeLabels m e) k v := by
  obtain ⟨w, hw, hnd, hsub⟩ := h
  have hkey : hasKey (mergeLabels m e) k := by
    rw [hasKey_mergeLabels]
    exact Or.inl (by unfold hasKey; simp [hw])
  unfold hasKey at hkey
  obtain ⟨w1, hw1⟩ := Option.isSome_iff_exists.mp hkey
  refine ⟨w1, hw1, ValLab_mergeLabels e m hm k w1 hw1, ?_⟩
  intro x hx
  have hmem : memLab (mergeLabels m e) k x :=
    (memLab_mergeLabels e m k x).mpr (Or.inl ⟨w, hw, hsub x hx⟩)
  exact (memLab_of_lookup _ _ _ _ hw1).mpr hmem

theorem lookupLabel_of_keysNodup (e : Labels) :
    ∀ (k : String) (v : List String), (e.map Prod.fst).Nodup → (k, v) ∈ e →
      lookupLabel e k = some v := by
  induction e with
  | nil => intro k v _ h; exact absurd h (List.not_mem_nil _)
  | cons p t ih =>
    intro k v hnd hmem
    obtain ⟨k1, v1⟩ := p
    rcases List.mem_cons.mp hmem with h1 | h1
    · have hk : k = k1 := congrArg Prod.fst h1
      have hv : v = v1 := congrArg Prod.snd h1
      subst hk
      subst hv
      simp [lookupLabel]
    · simp only [lookupLabel]
      have hk1 : k1 ≠ k := by
        intro hc
        subst hc
        have : k1 ∈ t.map Prod.fst := List.mem_map.mpr ⟨(k1, v), h1, rfl⟩
        exact (List.nodup_cons.mp (by simpa using hnd)).1 this
      rw [if_neg hk1]
      exact ih k v (List.nodup_cons.mp (by simpa using hnd)).2 h1

theorem pairMem_iff_memLab (e : Labels) (k x : String)
    (hnd : (e.map Prod.fst).Nodup) :
    (∃ v, (k, v) ∈ e ∧ x ∈ v) ↔ memLab e k x := by
  constructor
  · rintro ⟨v, hv, hx⟩
    exact ⟨v, lookupLabel_of_keysNodup e k v hnd hv, hx⟩
  · rintro ⟨w, hw, hx⟩
    refine ⟨w, ?_, hx⟩
    clear hnd
    induction e with
    | nil => simp [lookupLabel] at hw
    | cons p t ih =>
      obtain ⟨k1, v1⟩ := p
      simp only [lookupLabel] at hw
      by_cases h : k1 = k
      · rw [if_pos h] at hw
        obtain rfl : v1 = w := Option.some.inj hw
        exact List.mem_cons.mpr (Or.inl (by rw [h]))
      · rw [if_neg h] at hw
        exact List.mem_cons.mpr (Or.inr (ih hw))

theorem mergeEntity_ordId (m e : Entity) : (mergeEntity m e).ordId = m.ordId := by
  unfold mergeEntity
  by_cases h : e.kind = m.kind
  · rw [if_pos h]
  · rw [if_neg h]

theorem mergeEntity_kind (m e : Entity) : (mergeEntity m e).kind = m.kind := by
  unfold mergeEntity
  by_cases h : e.kind = m.kind
  · rw [if_pos h]
  · rw [if_neg h]

theorem dedupEntity_ordId (e : Entity) : (dedupEntity e).ordId = e.ordId := rfl

theorem dedupEntity_kind (e : Entity) : (dedupEntity e).kind = e.kind := rfl

theorem NormE_mergeEntity (m e : Entity) (hm : NormE m) : NormE (mergeEntity m e) := by
  unfold mergeEntity
  by_cases h : e.kind = m.kind
  · rw [if_pos h]
    exact ⟨nodup_dedupUnion _ _, nodup_dedupUnion _ _, nodup_dedupUnion _ _,
      nodup_dedupUnion _ _, nodup_dedupUnion _ _, nodup_dedupUnion _ _,
      ValLab_mergeLabels e.labels m.labels hm.2.2.2.2.2.2⟩
  · rw [if_neg h]
    exact hm

theorem NormE_dedupEntity (e : Entity) : NormE (dedupEntity e) :=
  ⟨nodup_dedupStr _, nodup_dedupStr _, nodup_dedupStr _, nodup_dedupStr _,
   nodup_dedupStr _, nodup_dedupStr _, ValLab_mergeLabels e.labels [] ValLab_nil⟩

theorem conflicted_update_self (m : Entity) (h : m.conflicted = true) :
    { m with conflicted := true } = m := by
  cases m
  simp_all

theorem mergeEntity_absorb (m e : Entity) (hm : NormE m) (h : AbsorbsE m e) :
    mergeEntity m e = m := by
  unfold mergeEntity
  by_cases hk : e.kind = m.kind
  · rw [if_pos hk]
    obtain ⟨hlu, htg, hco, hlb, hin, hpp, hsu, hab⟩ := h.1 hk
    have hnotgt : ¬ e.lastUpdate > m.lastUpdate := Nat.not_lt.mpr hlu
    obtain ⟨hnd1, hnd2, hnd3, hnd4, hnd5, hnd6, hval⟩ := hm
    have h1 : mergeLabels m.labels e.labels = m.labels :=
      mergeLabels_absorb e.labels _ hab
    have h2 : dedupUnion m.tags e.tags = m.tags := dedupUnion_absorb _ _ hnd1 htg
    have h3 : dedupUnion m.countries e.countries = m.countries :=
      dedupUnion_absorb _ _ hnd2 hco
    have h4 : dedupUnion m.lineOfBusiness e.lineOfBusiness = m.lineOfBusiness :=
      dedupUnion_absorb _ _ hnd3 hlb
    have h5 : dedupUnion m.industry e.industry = m.industry :=
      dedupUnion_absorb _ _ hnd4 hin
    have h6 : dedupUnion m.partOfProducts e.partOfProducts = m.partOfProducts :=
      dedupUnion_absorb _ _ hnd5 hpp
    have h7 : dedupUnion m.successors e.successors = m.successors :=
      dedupUnion_absorb _ _ hnd6 hsu
    have h8 : max m.lastUpdate e.lastUpdate = m.lastUpdate := Nat.max_eq_left hlu
    cases m
    simp_all
  · rw [if_neg hk]
    exact conflicted_update_self m (h.2 hk)

theorem AbsorbsE_mergeEntity_self (m e : Entity) (hm : NormE m) :
    AbsorbsE (mergeEntity m e) e := by
  unfold mergeEntity
  by_cases hk : e.kind = m.kind
  · rw [if_pos hk]
    constructor
    · intro _
      refine ⟨Nat.le_max_right _ _, ?_, ?_, ?_, ?_, ?_, ?_, ?_⟩
      · intro x hx; exact (mem_dedupUnion _ _ x).mpr (Or.inr hx)
      · intro x hx; exact (mem_dedupUnion _ _ x).mpr (Or.inr hx)
      · intro x hx; exact (mem_dedupUnion _ _ x).mpr (Or.inr hx)
      · intro x hx; exact (mem_dedupUnion _ _ x).mpr (Or.inr hx)
      · intro x hx; exact (mem_dedupUnion _ _ x).mpr (Or.inr hx)
      · intro x hx; exact (mem_dedupUnion _ _ x).mpr (Or.inr hx)
      · exact mergeLabels_absorbs_self m.labels e.labels hm.2.2.2.2.2.2
    · intro hc
      exact absurd hk hc
  · rw [if_neg hk]
    constructor
    · intro hc
      exact absurd hc hk
    · intro _
      rfl

theorem AbsorbsE_dedupEntity (e : Entity) : AbsorbsE (dedupEntity e) e := by
  constructor
  · intro _
    refine ⟨Nat.le_refl _, ?_, ?_, ?_, ?_, ?_, ?_, ?_⟩
    · intro x hx; exact (mem_dedupStr _ x).mpr hx
    · intro x hx; exact (mem_dedupStr _ x).mpr hx
    · intro x hx; exact (mem_dedupStr _ x).mpr hx
    · intro x hx; exact (mem_dedupStr _ x).mpr hx
    · intro x hx; exact (mem_dedupStr _ x).mpr hx
    · intro x hx; exact (mem_dedupStr _ x).mpr hx
    · exact mergeLabels_absorbs_self [] e.labels ValLab_nil
  · intro hc
    exact absurd rfl hc

theorem AbsorbsE_mono (m e eNew : Entity) (hm : NormE m) (h : AbsorbsE m e) :
    AbsorbsE (mergeEntity m eNew) e := by
  unfold mergeEntity
  by_cases hk : eNew.kind = m.kind
  · rw [if_pos hk]
    constructor
    · intro hek
      obtain ⟨hlu, htg, hco, hlb, hin, hpp, hsu, hab⟩ := h.1 hek
      refine ⟨Nat.le_trans hlu (Nat.le_max_left _ _), ?_, ?_, ?_, ?_, ?_, ?_, ?_⟩
      · intro x hx; exact (mem_dedupUnion _ _ x).mpr (Or.inl (htg x hx))
      · intro x hx; exact (mem_dedupUnion _ _ x).mpr (Or.inl (hco x hx))
      · intro x hx; exact (mem_dedupUnion _ _ x).mpr (Or.inl (hlb x hx))
      · intro x hx; exact (mem_dedupUnion _ _ x).mpr (Or.inl (hin x hx))
      · intro x hx; exact (mem_dedupUnion _ _ x).mpr (Or.inl (hpp x hx))
      · intro x hx; exact (mem_dedupUnion _ _ x).mpr (Or.inl (hsu x hx))
      · intro p hp
        exact AbsLab_mono m.labels eNew.labels p.1 p.2 hm.2.2.2.2.2.2 (hab p hp)
    · intro hc
      exact h.2 hc
  · rw [if_neg hk]
    constructor
    · intro hek
      exact h.1 hek
    · intro _
      rfl

theorem applyEntities_nil (g : List Entity) : applyEntities g [] = g := rfl

theorem applyEntities_cons (g : List Entity) (e : Entity) (t : List Entity) :
    applyEntities g (e :: t) = applyEntities (insertEntity g e) t := rfl

theorem lookupGraph_some_ordId (g : List Entity) :
    ∀ (x : String) (m : Entity), lookupGraph g x = some m → m.ordId = x := by
  induction g with
  | nil => intro x m h; simp [lookupGraph] at h
  | cons a t ih =>
    intro x m h
    simp only [lookupGraph] at h
    by_cases ha : a.ordId = x
    · rw [if_pos ha] at h
      obtain rfl : a = m := Option.some.inj h
      exact ha
    · rw [if_neg ha] at h
      exact ih x m h

theorem lookupGraph_some_mem (g : List Entity) :
    ∀ (x : String) (m : Entity), lookupGraph g x = some m → m ∈ g := by
  induction g with
  | nil => intro x m h; simp [lookupGraph] at h
  | cons a t ih =>
    intro x m h
    simp only [lookupGraph] at h
    by_cases ha : a.ordId = x
    · rw [if_pos ha] at h
      exact List.mem_cons.mpr (Or.inl (Option.some.inj h).symm)
    · rw [if_neg ha] at h
      exact List.mem_cons.mpr (Or.inr (ih x m h))

theorem lookupGraph_append (g1 g2 : List Entity) (x : String) :
    lookupGraph (g1 ++ g2) x =
      match lookupGraph g1 x with
      | some m => some m
      | none => lookupGraph g2 x := by
  induction g1 with
  | nil => simp [lookupGraph]
  | cons a t ih =>
    show lookupGraph (a :: (t ++ g2)) x = _
    simp only [lookupGraph]
    by_cases ha : a.ordId = x
    · rw [if_pos ha, if_pos ha]
    · rw [if_neg ha, if_neg ha]
      exact ih

theorem lookupGraph_eq_none (g : List Entity) (x : String) :
    lookupGraph g x = none ↔ x ∉ g.map Entity.ordId := by
  induction g with
  | nil => simp [lookupGraph]
  | cons a t ih =>
    simp only [lookupGraph, List.map_cons, List.mem_cons]
    by_cases ha : a.ordId = x
    · rw [if_pos ha]
      simp [ha]
    · rw [if_neg ha]
      rw [ih]
      constructor
      · intro h hc
        rcases hc with hc | hc
        · exact ha hc.symm
        · exact h hc
      · intro h hc
        exact h (Or.inr hc)

theorem lookupGraph_map_update (g : List Entity) (e : Entity) (x : String) :
    lookupGraph (g.map (fun m => if m.ordId = e.ordId then mergeEntity m e else m)) x =
      match lookupGraph g x with
      | some m => some (if m.ordId = e.ordId then mergeEntity m e else m)
      | none => none := by
  induction g with
  | nil => simp [lookupGraph]
  | cons a t ih =>
    simp only [List.map_cons, lookupGraph]
    have hord : (if a.ordId = e.ordId then mergeEntity a e else a).ordId = a.ordId := by
      by_cases ha : a.ordId = e.ordId
      · rw [if_pos ha]; exact mergeEntity_ordId a e
      · rw [if_neg ha]
    rw [hord]
    by_cases hax : a.ordId = x
    · rw [if_pos hax, if_pos hax]
    · rw [if_neg hax, if_neg hax]
      exact ih

theorem lookupGraph_insertEntity (g : List Entity) (e : Entity) (x : String) :
    lookupGraph (insertEntity g e) x =
      if x = e.ordId then
        (match lookupGraph g e.ordId with
         | some m => some (mergeEntity m e)
         | none => some (dedupEntity e))
      else lookupGraph g x := by
  unfold insertEntity
  cases h : lookupGraph g e.ordId with
  | some m =>
    rw [lookupGraph_map_update]
    by_cases hx : x = e.ordId
    · rw [if_pos hx, hx, h]
      show some (if m.ordId = e.ordId then mergeEntity m e else m) = some (mergeEntity m e)
      rw [if_pos (lookupGraph_some_ordId g e.ordId m h)]
    · rw [if_neg hx]
      cases h1 : lookupGraph g x with
      | some m1 =>
        have hm1 : m1.ordId = x := lookupGraph_some_ordId g x m1 h1
        show some (if m1.ordId = e.ordId then mergeEntity m1 e else m1) = some m1
        rw [if_neg (fun hc => hx (hm1 ▸ hc))]
      | none => rfl
  | none =>
    rw [lookupGraph_append]
    by_cases hx : x = e.ordId
    · rw [if_pos hx, hx, h]
      show lookupGraph [dedupEntity e] e.ordId = some (dedupEntity e)
      simp only [lookupGraph]
      rw [if_pos (dedupEntity_ordId e)]
    · rw [if_neg hx]
      cases h1 : lookupGraph g x with
      | some m1 => rfl
      | none =>
        show lookupGraph [dedupEntity e] x = none
        simp only [lookupGraph]
        rw [dedupEntity_ordId e, if_neg (fun hc => hx hc.symm)]

theorem GoodG_nil : GoodG [] :=
  ⟨fun m hm => absurd hm (List.not_mem_nil m), List.nodup_nil⟩

theorem lookupGraph_of_mem (g : List Entity) :
    ∀ m : Entity, KeysOk g → m ∈ g → lookupGraph g m.ordId = some m := by
  induction g with
  | nil => intro m _ hm; exact absurd hm (List.not_mem_nil m)
  | cons a t ih =>
    intro m hk hm
    simp only [lookupGraph]
    rcases List.mem_cons.mp hm with h | h
    · subst h
      rw [if_pos rfl]
    · have hne : a.ordId ≠ m.ordId := by
        intro hc
        have hmem : m.ordId ∈ t.map Entity.ordId := List.mem_map.mpr ⟨m, h, rfl⟩
        have hnd := hk
        unfold KeysOk at hnd
        simp only [List.map_cons] at hnd
        exact (List.nodup_cons.mp hnd).1 (hc ▸ hmem)
      rw [if_neg hne]
      refine ih m ?_ h
      unfold KeysOk at hk ⊢
      simp only [List.map_cons] at hk
      exact (List.nodup_cons.mp hk).2

theorem map_fix (l : List Entity) (f : Entity → Entity)
    (h : ∀ a ∈ l, f a = a) : l.map f = l := by
  induction l with
  | nil => rfl
  | cons a t ih =>
    simp only [List.map_cons]
    rw [h a (List.mem_cons.mpr (Or.inl rfl)),
      ih (fun b hb => h b (List.mem_cons.mpr (Or.inr hb)))]

theorem NormG_insertEntity (g : List Entity) (e : Entity) (hg : NormG g) :
    NormG (insertEntity g e) := by
  unfold insertEntity
  cases h : lookupGraph g e.ordId with
  | some m =>
    intro a ha
    obtain ⟨b, hb, rfl⟩ := List.mem_map.mp ha
    by_cases hab : b.ordId = e.ordId
    · rw [if_pos hab]
      exact NormE_mergeEntity b e (hg b hb)
    · rw [if_neg hab]
      exact hg b hb
  | none =>
    intro a ha
    rcases List.mem_append.mp ha with h1 | h1
    · exact hg a h1
    · have : a = dedupEntity e := by
        rcases List.mem_cons.mp h1 with h2 | h2
        · exact h2
        · exact absurd h2 (List.not_mem_nil a)
      rw [this]
      exact NormE_dedupEntity e

theorem map_ordId_update (g : List Entity) (e : Entity) :
    (g.map (fun m => if m.ordId = e.ordId then mergeEntity m e else m)).map
      Entity.ordId = g.map Entity.ordId := by
  induction g with
  | nil => rfl
  | cons a t ih =>
    simp only [List.map_cons]
    have hord : (if a.ordId = e.ordId then mergeEntity a e else a).ordId = a.ordId := by
      by_cases ha : a.ordId = e.ordId
      · rw [if_pos ha]; exact mergeEntity_ordId a e
      · rw [if_neg ha]
    rw [hord, ih]

theorem KeysOk_insertEntity (g : List Entity) (e : Entity) (hk : KeysOk g) :
    KeysOk (insertEntity g e) := by
  unfold insertEntity
  cases h : lookupGraph g e.ordId with
  | some m =>
    unfold KeysOk
    rw [map_ordId_update]
    exact hk
  | none =>
    unfold KeysOk
    rw [List.map_append]
    have hnotin : e.ordId ∉ g.map Entity.ordId := (lookupGraph_eq_none g e.ordId).mp h
    rw [List.nodup_append]
    refine ⟨hk, List.nodup_singleton _, ?_⟩
    intro x hx hc
    have : x = (dedupEntity e).ordId := by
      simp only [List.map_cons, List.map_nil, List.mem_cons] at hc
      rcases hc with h1 | h1
      · exact h1
      · exact absurd h1 (List.not_mem_nil x)
    rw [dedupEntity_ordId] at this
    exact hnotin (this ▸ hx)

theorem GoodG_insertEntity (g : List Entity) (e : Entity) (hg : GoodG g) :
    GoodG (insertEntity g e) :=
  ⟨NormG_insertEntity g e hg.1, KeysOk_insertEntity g e hg.2⟩

theorem GoodG_applyEntities (batch : List Entity) :
    ∀ g : List Entity, GoodG g → GoodG (applyEntities g batch) := by
  induction batch with
  | nil => intro g hg; exact hg
  | cons e t ih =>
    intro g hg
    rw [applyEntities_cons]
    exact ih (insertEntity g e) (GoodG_insertEntity g e hg)

theorem insertEntity_absorb (g : List Entity) (e : Entity)
    (hg : GoodG g) (h : AbsG g e) : insertEntity g e = g := by
  obtain ⟨m, hlook, habs⟩ := h
  unfold insertEntity
  rw [hlook]
  apply map_fix
  intro a ha
  by_cases hoa : a.ordId = e.ordId
  · rw [if_pos hoa]
    have hla : lookupGraph g a.ordId = some a := lookupGraph_of_mem g a hg.2 ha
    rw [hoa] at hla
    obtain rfl : m = a := Option.some.inj (hlook ▸ hla)
    exact mergeEntity_absorb m e (hg.1 m ha) habs
  · rw [if_neg hoa]

theorem AbsG_insert_self (g : List Entity) (e : Entity) (hg : NormG g) :
    AbsG (insertEntity g e) e := by
  cases h : lookupGraph g e.ordId with
  | some m =>
    refine ⟨mergeEntity m e, ?_, AbsorbsE_mergeEntity_self m e
      (hg m (lookupGraph_some_mem g e.ordId m h))⟩
    rw [lookupGraph_insertEntity, if_pos rfl, h]
  | none =>
    refine ⟨dedupEntity e, ?_, AbsorbsE_dedupEntity e⟩
    rw [lookupGraph_insertEntity, if_pos rfl, h]

theorem AbsG_insert_mono (g : List Entity) (e e1 : Entity)
    (hg : NormG g) (h : AbsG g e) : AbsG (insertEntity g e1) e := by
  obtain ⟨m, hlook, habs⟩ := h
  by_cases hx : e.ordId = e1.ordId
  · refine ⟨mergeEntity m e1, ?_, AbsorbsE_mono m e e1
      (hg m (lookupGraph_some_mem g e.ordId m hlook)) habs⟩
    rw [lookupGraph_insertEntity, if_pos hx, ← hx, hlook]
  · refine ⟨m, ?_, habs⟩
    rw [lookupGraph_insertEntity, if_neg hx]
    exact hlook

theorem AbsG_apply_mono (batch : List Entity) :
    ∀ (g : List Entity) (e : Entity), GoodG g → AbsG g e →
      AbsG (applyEntities g batch) e := by
  induction batch with
  | nil => intro g e _ h; exact h
  | cons e1 t ih =>
    intro g e hg h
    rw [applyEntities_cons]
    exact ih (insertEntity g e1) e (GoodG_insertEntity g e1 hg)
      (AbsG_insert_mono g e e1 hg.1 h)

theorem AbsG_apply_all (batch : List Entity) :
    ∀ g : List Entity, GoodG g → ∀ e ∈ batch, AbsG (applyEntities g batch) e := by
  induction batch with
  | nil => intro g _ e he; exact absurd he (List.not_mem_nil e)
  | cons e1 t ih =>
    intro g hg e he
    rw [applyEntities_cons]
    rcases List.mem_cons.mp he with h | h
    · subst h
      exact AbsG_apply_mono t (insertEntity g e) e (GoodG_insertEntity g e hg)
        (AbsG_insert_self g e hg.1)
    · exact ih (insertEntity g e1) (GoodG_insertEntity g e1 hg) e h

theorem applyEntities_absorb (batch : List Entity) :
    ∀ g : List Entity, GoodG g → (∀ e ∈ batch, AbsG g e) →
      applyEntities g batch = g := by
  induction batch with
  | nil => intro g _ _; rfl
  | cons e1 t ih =>
    intro g hg h
    rw [applyEntities_cons,
      insertEntity_absorb g e1 hg (h e1 (List.mem_cons.mpr (Or.inl rfl)))]
    exact ih g hg (fun e he => h e (List.mem_cons.mpr (Or.inr he)))

theorem applyEntities_idem (batch : List Entity) :
    applyEntities (applyEntities [] batch) batch = applyEntities [] batch :=
  applyEntities_absorb batch (applyEntities [] batch)
    (GoodG_applyEntities batch [] GoodG_nil)
    (AbsG_apply_all batch [] GoodG_nil)

theorem mergeDocuments_eq_applyEntities (docs : List ORDDoc) :
    ∀ g : List Entity, mergeDocuments g docs = applyEntities g (docsEntities docs) := by
  induction docs with
  | nil => intro g; rfl
  | cons d t ih =>
    intro g
    show mergeDocuments (applyEntities g d.entities) t =
      applyEntities g (d.entities ++ docsEntities t)
    rw [ih (applyEntities g d.entities)]
    unfold applyEntities
    rw [List.foldl_append]

/-- C1.  The Merge Engine is idempotent: re-merging the same document
set D onto the graph already obtained by merging D yields a graph
structurally equal to that graph (spec sections 4.6 and 8). -/
theorem mergeDocuments_idempotent (docs : List ORDDoc) :
    mergeDocuments (mergeDocuments [] docs) docs = mergeDocuments [] docs := by
  rw [mergeDocuments_eq_applyEntities docs [],
    mergeDocuments_eq_applyEntities docs (applyEntities [] (docsEntities docs))]
  exact applyEntities_idem (docsEntities docs)

theorem LabEquiv_refl (m : Labels) : LabEquiv m m :=
  ⟨fun _ => Iff.rfl, fun _ _ => Iff.rfl⟩

theorem LabEquiv_symm (m1 m2 : Labels) (h : LabEquiv m1 m2) : LabEquiv m2 m1 :=
  ⟨fun k => (h.1 k).symm, fun k x => (h.2 k x).symm⟩

theorem LabEquiv_trans (m1 m2 m3 : Labels) (h1 : LabEquiv m1 m2)
    (h2 : LabEquiv m2 m3) : LabEquiv m1 m3 :=
  ⟨fun k => (h1.1 k).trans (h2.1 k), fun k x => (h1.2 k x).trans (h2.2 k x)⟩

theorem EquivE_refl (a : Entity) : EquivE a a :=
  ⟨rfl, rfl, rfl, rfl, rfl, rfl, rfl, fun _ => Iff.rfl, fun _ => Iff.rfl,
   fun _ => Iff.rfl, fun _ => Iff.rfl, fun _ => Iff.rfl, fun _ => Iff.rfl,
   LabEquiv_refl a.labels, rfl⟩

theorem EquivE_symm (a b : Entity) (h : EquivE a b) : EquivE b a := by
  obtain ⟨h1, h2, h3, h4, h5, h6, h7, h8, h9, h10, h11, h12, h13, h14, h15⟩ := h
  exact ⟨h1.symm, h2.symm, h3.symm, h4.symm, h5.symm, h6.symm, h7.symm,
    fun x => (h8 x).symm, fun x => (h9 x).symm, fun x => (h10 x).symm,
    fun x => (h11 x).symm, fun x => (h12 x).symm, fun x => (h13 x).symm,
    LabEquiv_symm _ _ h14, h15.symm⟩

theorem EquivE_trans (a b c : Entity) (hab : EquivE a b) (hbc : EquivE b c) :
    EquivE a c := by
  obtain ⟨h1, h2, h3, h4, h5, h6, h7, h8, h9, h10, h11, h12, h13, h14, h15⟩ := hab
  obtain ⟨g1, g2, g3, g4, g5, g6, g7, g8, g9, g10, g11, g12, g13, g14, g15⟩ := hbc
  exact ⟨h1.trans g1, h2.trans g2, h3.trans g3, h4.trans g4, h5.trans g5,
    h6.trans g6, h7.trans g7, fun x => (h8 x).trans (g8 x),
    fun x => (h9 x).trans (g9 x), fun x => (h10 x).trans (g10 x),
    fun x => (h11 x).trans (g11 x), fun x => (h12 x).trans (g12 x),
    fun x => (h13 x).trans (g13 x), LabEquiv_trans _ _ _ h14 g14, h15.trans g15⟩

theorem OptEquivE_refl (o : Option Entity) : OptEquivE o o := by
  cases o with
  | none => trivial
  | some a => exact EquivE_refl a

theorem OptEquivE_symm (o1 o2 : Option Entity) (h : OptEquivE o1 o2) :
    OptEquivE o2 o1 := by
  cases o1 <;> cases o2 <;> simp only [OptEquivE] at h ⊢
  exact EquivE_symm _ _ h

theorem OptEquivE_trans (o1 o2 o3 : Option Entity) (h1 : OptEquivE o1 o2)
    (h2 : OptEquivE o2 o3) : OptEquivE o1 o3 := by
  cases o1 <;> cases o2 <;> cases o3 <;> simp only [OptEquivE] at h1 h2 ⊢
  exact EquivE_trans _ _ _ h1 h2

theorem EquivG_refl (g : List Entity) : EquivG g g :=
  fun x => OptEquivE_refl (lookupGraph g x)

theorem EquivG_symm (g1 g2 : List Entity) (h : EquivG g1 g2) : EquivG g2 g1 :=
  fun x => OptEquivE_symm _ _ (h x)

theorem EquivG_trans (g1 g2 g3 : List Entity) (h1 : EquivG g1 g2)
    (h2 : EquivG g2 g3) : EquivG g1 g3 :=
  fun x => OptEquivE_trans _ _ _ (h1 x) (h2 x)

theorem hasKey_nil (k : String) : ¬ hasKey [] k := by
  simp [hasKey, lookupLabel]

theorem memLab_nil (k x : String) : ¬ memLab [] k x := by
  rintro ⟨w, hw, _⟩
  simp [lookupLabel] at hw

theorem LabEquiv_merge_congr (M1 M2 E : Labels) (h : LabEquiv M1 M2) :
    LabEquiv (mergeLabels M1 E) (mergeLabels M2 E) := by
  constructor
  · intro k
    rw [hasKey_mergeLabels, hasKey_mergeLabels]
    exact or_congr_left (h.1 k)
  · intro k x
    rw [memLab_mergeLabels, memLab_mergeLabels]
    exact or_congr_left (h.2 k x)

theorem LabEquiv_merge_comm (M E1 E2 : Labels) :
    LabEquiv (mergeLabels (mergeLabels M E1) E2)
      (mergeLabels (mergeLabels M E2) E1) := by
  constructor
  · intro k
    rw [hasKey_mergeLabels, hasKey_mergeLabels, hasKey_mergeLabels,
      hasKey_mergeLabels]
    exact or_right_comm
  · intro k x
    rw [memLab_mergeLabels, memLab_mergeLabels, memLab_mergeLabels,
      memLab_mergeLabels]
    exact or_right_comm

theorem LabEquiv_norm_merge_comm (E1 E2 : Labels) :
    LabEquiv (mergeLabels (normLabels E1) E2)
      (mergeLabels (normLabels E2) E1) := by
  constructor
  · intro k
    unfold normLabels
    rw [hasKey_mergeLabels, hasKey_mergeLabels, hasKey_mergeLabels,
      hasKey_mergeLabels]
    exact or_right_comm
  · intro k x
    unfold normLabels
    rw [memLab_mergeLabels, memLab_mergeLabels, memLab_mergeLabels,
      memLab_mergeLabels]
    exact or_right_comm

theorem EquivE_mergeEntity_congr (a b e : Entity) (h : EquivE a b) :
    EquivE (mergeEntity a e) (mergeEntity b e) := by
  obtain ⟨h1, h2, h3, h4, h5, h6, h7, h8, h9, h10, h11, h12, h13, h14, h15⟩ := h
  unfold mergeEntity
  by_cases hk : e.kind = a.kind
  · rw [if_pos hk, if_pos (hk.trans h2)]
    refine ⟨h1, h2, ?_, ?_, ?_, ?_, ?_, ?_, ?_, ?_, ?_, ?_, ?_, ?_, h15⟩
    · show (if e.lastUpdate > a.lastUpdate then e.title else a.title) = _
      rw [h7, h3]
    · show (if e.lastUpdate > a.lastUpdate then e.releaseStatus else a.releaseStatus) = _
      rw [h7, h4]
    · show (if e.lastUpdate > a.lastUpdate then e.partOfPackage else a.partOfPackage) = _
      rw [h7, h5]
    · show (if e.lastUpdate > a.lastUpdate then e.sunsetDate else a.sunsetDate) = _
      rw [h7, h6]
    · show max a.lastUpdate e.lastUpdate = max b.lastUpdate e.lastUpdate
      rw [h7]
    · intro x
      rw [mem_dedupUnion, mem_dedupUnion]
      exact or_congr_left (h8 x)
    · intro x
      rw [mem_dedupUnion, mem_dedupUnion]
      exact or_congr_left (h9 x)
    · intro x
      rw [mem_dedupUnion, mem_dedupUnion]
      exact or_congr_left (h10 x)
    · intro x
      rw [mem_dedupUnion, mem_dedupUnion]
      exact or_congr_left (h11 x)
    · intro x
      rw [mem_dedupUnion, mem_dedupUnion]
      exact or_congr_left (h12 x)
    · intro x
      rw [mem_dedupUnion, mem_dedupUnion]
      exact or_congr_left (h13 x)
    · exact LabEquiv_merge_congr _ _ e.labels h14
  · rw [if_neg hk, if_neg (fun hc => hk (hc.trans h2.symm))]
    exact ⟨h1, h2, h3, h4, h5, h6, h7, h8, h9, h10, h11, h12, h13, h14, rfl⟩

theorem lww_comm {α : Type} (a b c : Nat) (x y z : α) (h : b ≠ c) :
    (if c > max a b then z else if b > a then y else x) =
    (if b > max a c then y else if c > a then z else x) := by
  split_ifs <;> first | rfl | (exfalso; omega)

theorem lww2_comm {α : Type} (b c : Nat) (y z : α) (h : b ≠ c) :
    (if c > b then z else y) = (if b > c then y else z) := by
  split_ifs <;> first | rfl | (exfalso; omega)

theorem EquivE_merge_comm (m e1 e2 : Entity) (hk12 : e1.kind = e2.kind)
    (hlu : e1.lastUpdate ≠ e2.lastUpdate) :
    EquivE (mergeEntity (mergeEntity m e1) e2)
      (mergeEntity (mergeEntity m e2) e1) := by
  by_cases hk : e1.kind = m.kind
  · have hk2 : e2.kind = m.kind := hk12.symm.trans hk
    unfold mergeEntity
    rw [if_pos hk, if_pos hk2]
    simp only
    rw [if_pos hk2, if_pos hk]
    refine ⟨rfl, rfl, ?_, ?_, ?_, ?_, ?_, ?_, ?_, ?_, ?_, ?_, ?_, ?_, rfl⟩
    · exact lww_comm m.lastUpdate e1.lastUpdate e2.lastUpdate
        m.title e1.title e2.title hlu
    · exact lww_comm m.lastUpdate e1.lastUpdate e2.lastUpdate
        m.releaseStatus e1.releaseStatus e2.releaseStatus hlu
    · exact lww_comm m.lastUpdate e1.lastUpdate e2.lastUpdate
        m.partOfPackage e1.partOfPackage e2.partOfPackage hlu
    · exact lww_comm m.lastUpdate e1.lastUpdate e2.lastUpdate
        m.sunsetDate e1.sunsetDate e2.sunsetDate hlu
    · show max (max m.lastUpdate e1.lastUpdate) e2.lastUpdate =
        max (max m.lastUpdate e2.lastUpdate) e1.lastUpdate
      omega
    · intro x
      rw [mem_dedupUnion, mem_dedupUnion, mem_dedupUnion, mem_dedupUnion]
      exact or_right_comm
    · intro x
      rw [mem_dedupUnion, mem_dedupUnion, mem_dedupUnion, mem_dedupUnion]
      exact or_right_comm
    · intro x
      rw [mem_dedupUnion, mem_dedupUnion, mem_dedupUnion, mem_dedupUnion]
      exact or_right_comm
    · intro x
      rw [mem_dedupUnion, mem_dedupUnion, mem_dedupUnion, mem_dedupUnion]
      exact or_right_comm
    · intro x
      rw [mem_dedupUnion, mem_dedupUnion, mem_dedupUnion, mem_dedupUnion]
      exact or_right_comm
    · intro x
      rw [mem_dedupUnion, mem_dedupUnion, mem_dedupUnion, mem_dedupUnion]
      exact or_right_comm
    · exact LabEquiv_merge_comm m.labels e1.labels e2.labels
  · have hk2 : ¬ e2.kind = m.kind := fun hc => hk (hk12.trans hc)
    unfold mergeEntity
    rw [if_neg hk, if_neg hk2]
    simp only
    rw [if_neg hk2, if_neg hk]
    exact EquivE_refl _

theorem EquivE_merge_dedup_comm (e1 e2 : Entity) (hord : e1.ordId = e2.ordId)
    (hk12 : e1.kind = e2.kind) (hlu : e1.lastUpdate ≠ e2.lastUpdate) :
    EquivE (mergeEntity (dedupEntity e1) e2)
      (mergeEntity (dedupEntity e2) e1) := by
  unfold mergeEntity dedupEntity
  simp only
  rw [if_pos hk12.symm, if_pos hk12]
  refine ⟨hord, hk12, ?_, ?_, ?_, ?_, ?_, ?_, ?_, ?_, ?_, ?_, ?_, ?_, rfl⟩
  · exact lww2_comm e1.lastUpdate e2.lastUpdate e1.title e2.title hlu
  · exact lww2_comm e1.lastUpdate e2.lastUpdate
      e1.releaseStatus e2.releaseStatus hlu
  · exact lww2_comm e1.lastUpdate e2.lastUpdate
      e1.partOfPackage e2.partOfPackage hlu
  · exact lww2_comm e1.lastUpdate e2.lastUpdate
      e1.sunsetDate e2.sunsetDate hlu
  · show max e1.lastUpdate e2.lastUpdate = max e2.lastUpdate e1.lastUpdate
    omega
  · intro x
    rw [mem_dedupUnion, mem_dedupUnion, mem_dedupStr, mem_dedupStr]
    exact Or.comm
  · intro x
    rw [mem_dedupUnion, mem_dedupUnion, mem_dedupStr, mem_dedupStr]
    exact Or.comm
  · intro x
    rw [mem_dedupUnion, mem_dedupUnion, mem_dedupStr, mem_dedupStr]
    exact Or.comm
  · intro x
    rw [mem_dedupUnion, mem_dedupUnion, mem_dedupStr, mem_dedupStr]
    exact Or.comm
  · intro x
    rw [mem_dedupUnion, mem_dedupUnion, mem_dedupStr, mem_dedupStr]
    exact Or.comm
  · intro x
    rw [mem_dedupUnion, mem_dedupUnion, mem_dedupStr, mem_dedupStr]
    exact Or.comm
  · exact LabEquiv_norm_merge_comm e1.labels e2.labels

theorem EquivG_insert_congr (g1 g2 : List Entity) (e : Entity)
    (h : EquivG g1 g2) : EquivG (insertEntity g1 e) (insertEntity g2 e) := by
  intro x
  rw [lookupGraph_insertEntity, lookupGraph_insertEntity]
  by_cases hx : x = e.ordId
  · rw [if_pos hx, if_pos hx]
    have he := h e.ordId
    cases h1 : lookupGraph g1 e.ordId with
    | none =>
      cases h2 : lookupGraph g2 e.ordId with
      | none => exact EquivE_refl _
      | some b =>
        rw [h1, h2] at he
        exact False.elim he
    | some a =>
      cases h2 : lookupGraph g2 e.ordId with
      | none =>
        rw [h1, h2] at he
        exact False.elim he
      | some b =>
        rw [h1, h2] at he
        exact EquivE_mergeEntity_congr a b e he
  · rw [if_neg hx, if_neg hx]
    exact h x

theorem EquivG_apply_congr (batch : List Entity) :
    ∀ g1 g2 : List Entity, EquivG g1 g2 →
      EquivG (applyEntities g1 batch) (applyEntities g2 batch) := by
  induction batch with
  | nil => intro g1 g2 h; exact h
  | cons e t ih =>
    intro g1 g2 h
    rw [applyEntities_cons, applyEntities_cons]
    exact ih _ _ (EquivG_insert_congr g1 g2 e h)

theorem EquivG_insert_swap (g : List Entity) (e1 e2 : Entity)
    (h : compat e1 e2) :
    EquivG (insertEntity (insertEntity g e1) e2)
      (insertEntity (insertEntity g e2) e1) := by
  intro x
  simp only [lookupGraph_insertEntity]
  by_cases ho : e1.ordId = e2.ordId
  · obtain ⟨hk12, hlu⟩ := h ho
    by_cases hx : x = e1.ordId
    · have hx2 : x = e2.ordId := hx.trans ho
      simp only [if_pos hx, if_pos hx2, if_pos ho, if_pos ho.symm]
      rw [← ho]
      cases h1 : lookupGraph g e1.ordId with
      | none => exact EquivE_merge_dedup_comm e1 e2 ho hk12 hlu
      | some m => exact EquivE_merge_comm m e1 e2 hk12 hlu
    · have hx2 : ¬ x = e2.ordId := fun hc => hx (hc.trans ho.symm)
      simp only [if_neg hx, if_neg hx2]
      exact OptEquivE_refl _
  · have ho2 : ¬ e2.ordId = e1.ordId := fun hc => ho hc.symm
    by_cases hx1 : x = e1.ordId
    · have hx2 : ¬ x = e2.ordId := fun hc => ho (hx1.symm.trans hc)
      simp only [if_neg hx2, if_pos hx1, if_neg ho]
      exact OptEquivE_refl _
    · by_cases hx2 : x = e2.ordId
      · simp only [if_pos hx2, if_neg hx1, if_neg ho2]
        exact OptEquivE_refl _
      · simp only [if_neg hx1, if_neg hx2]
        exact OptEquivE_refl _

theorem EquivG_insert_move (batch : List Entity) :
    ∀ (g : List Entity) (e : Entity), (∀ e2 ∈ batch, compat e e2) →
      EquivG (applyEntities (insertEntity g e) batch)
        (insertEntity (applyEntities g batch) e) := by
  induction batch with
  | nil => intro g e _; exact EquivG_refl _
  | cons e2 t ih =>
    intro g e h
    rw [applyEntities_cons, applyEntities_cons]
    refine EquivG_trans _ _ _ ?_ (ih (insertEntity g e2) e
      (fun e3 he3 => h e3 (List.mem_cons.mpr (Or.inr he3))))
    exact EquivG_apply_congr t _ _
      (EquivG_insert_swap g e e2 (h e2 (List.mem_cons.mpr (Or.inl rfl))))

theorem EquivG_apply_comm (b1 : List Entity) :
    ∀ (g : List Entity) (b2 : List Entity),
      (∀ e1 ∈ b1, ∀ e2 ∈ b2, compat e1 e2) →
      EquivG (applyEntities (applyEntities g b1) b2)
        (applyEntities (applyEntities g b2) b1) := by
  induction b1 with
  | nil => intro g b2 _; exact EquivG_refl _
  | cons e t ih =>
    intro g b2 h
    rw [applyEntities_cons]
    have h1 : EquivG (applyEntities (applyEntities (insertEntity g e) t) b2)
        (applyEntities (applyEntities (insertEntity g e) b2) t) :=
      ih (insertEntity g e) b2
        (fun e1 he1 e2 he2 => h e1 (List.mem_cons.mpr (Or.inr he1)) e2 he2)
    refine EquivG_trans _ _ _ h1 ?_
    show EquivG _ (applyEntities (insertEntity (applyEntities g b2) e) t)
    refine EquivG_apply_congr t _ _ ?_
    exact EquivG_insert_move b2 g e
      (fun e2 he2 => h e (List.mem_cons.mpr (Or.inl rfl)) e2 he2)

/-- C8, counterexample.  Batch application is not commutative as stated.
First part: two batches describing the same ordId with conflicting
entity types (a fatal consistency conflict, not a recency tie: the
lastUpdate stamps 5 and 7 are distinct) leave different surviving
titles depending on order.  Second part: even for compatible batches
(same kind, distinct lastUpdate), the two orders yield graphs that are
not structurally equal - the unioned tag lists are ["a", "b"] and
["b", "a"] - so order-independence holds only up to set-semantics
equivalence of list fields, not structural equality. -/
theorem mergeDocuments_batch_comm_counterexample :
    (lookupGraph (mergeDocuments (mergeDocuments [] [⟨[c8eA1], []⟩])
        [⟨[c8eA2], []⟩]) "ns:apiResource:x:v1").map Entity.title ≠
      (lookupGraph (mergeDocuments (mergeDocuments [] [⟨[c8eA2], []⟩])
        [⟨[c8eA1], []⟩]) "ns:apiResource:x:v1").map Entity.title ∧
    mergeDocuments (mergeDocuments [] [⟨[c8eB1], []⟩]) [⟨[c8eB2], []⟩] ≠
      mergeDocuments (mergeDocuments [] [⟨[c8eB2], []⟩]) [⟨[c8eB1], []⟩] := by
  constructor
  · decide
  · decide

/-- C8 (amended).  For provider batches B1 and B2 in which entities
sharing an ordId across the two batches have the same entity type and
distinct lastUpdate stamps (so the recency tiebreak is decisive and no
fatal type conflict arises), applying B1 then B2 to any merged graph
yields a graph equivalent to applying B2 then B1: the same ORD IDs
resolve, with equal identity and scalar fields (last-writer-wins picks
the same writer in both orders) and with the same membership of every
list field and label value - entity-level conflict resolution is
commutative and order-independent up to the recency tiebreak, with
graph equality read extensionally (list fields are sets per spec
section 4.6). -/
theorem mergeDocuments_batch_comm (g : List Entity) (b1 b2 : List ORDDoc)
    (h : ∀ e1 ∈ docsEntities b1, ∀ e2 ∈ docsEntities b2, compat e1 e2) :
    EquivG (mergeDocuments (mergeDocuments g b1) b2)
      (mergeDocuments (mergeDocuments g b2) b1) := by
  simp only [mergeDocuments_eq_applyEntities]
  exact EquivG_apply_comm (docsEntities b1) g (docsEntities b2) h

/-- C8, witness: the commutation theorem applied to two concrete
single-document batches with distinct lastUpdate stamps. -/
theorem mergeDocuments_batch_comm_witness :
    EquivG (mergeDocuments (mergeDocuments [] [⟨[c8eB1], []⟩]) [⟨[c8eB2], []⟩])
      (mergeDocuments (mergeDocuments [] [⟨[c8eB2], []⟩]) [⟨[c8eB1], []⟩]) :=
  mergeDocuments_batch_comm [] [⟨[c8eB1], []⟩] [⟨[c8eB2], []⟩] (by decide)

theorem mergeEntity_labels (m e : Entity) (h : e.kind = m.kind) :
    (mergeEntity m e).labels = mergeLabels m.labels e.labels := by
  unfold mergeEntity
  rw [if_pos h]

/-- C2.  When two documents describe the same entity (same ordId, same
type), the merged entity's label map sends each key to the
duplicate-free union of the two documents' value lists for that key:
membership in the merged value list is membership in either input list,
and every stored value list is duplicate-free.  In particular merging
labels k to [x] with labels k to [y, x] yields labels k to [x, y], with
no duplicate x. -/
theorem mergeEntity_label_union :
    (∀ e1 e2 : Entity, e1.ordId = e2.ordId → e1.kind = e2.kind →
      (e1.labels.map Prod.fst).Nodup → (e2.labels.map Prod.fst).Nodup →
      ∀ m, lookupGraph (mergeDocuments [] [⟨[e1], []⟩, ⟨[e2], []⟩])
          e1.ordId = some m →
        (∀ k x, memLab m.labels k x ↔
          (memLab e1.labels k x ∨ memLab e2.labels k x)) ∧
        (∀ k w, lookupLabel m.labels k = some w → w.Nodup)) ∧
    (lookupGraph (mergeDocuments [] [⟨[c2e1], []⟩, ⟨[c2e2], []⟩])
        "ns:apiResource:x:v1").map Entity.labels = some [("k", ["x", "y"])] := by
  constructor
  · intro e1 e2 hord hkind hnd1 hnd2 m hm
    have hcomp : mergeDocuments [] [(⟨[e1], []⟩ : ORDDoc), ⟨[e2], []⟩] =
        insertEntity (insertEntity [] e1) e2 := rfl
    rw [hcomp, lookupGraph_insertEntity, if_pos hord,
      lookupGraph_insertEntity, if_pos hord.symm] at hm
    have hm2 : lookupGraph [] e1.ordId = none := rfl
    rw [hm2] at hm
    have hmEq : mergeEntity (dedupEntity e1) e2 = m := Option.some.inj hm
    have hkd : e2.kind = (dedupEntity e1).kind := hkind.symm
    have hlab : m.labels = mergeLabels (normLabels e1.labels) e2.labels := by
      rw [← hmEq, mergeEntity_labels (dedupEntity e1) e2 hkd]
      rfl
    constructor
    · intro k x
      rw [hlab, memLab_mergeLabels]
      unfold normLabels
      rw [memLab_mergeLabels]
      constructor
      · rintro ((h0 | h1) | h2)
        · exact absurd h0 (memLab_nil k x)
        · exact Or.inl ((pairMem_iff_memLab e1.labels k x hnd1).mp h1)
        · exact Or.inr ((pairMem_iff_memLab e2.labels k x hnd2).mp h2)
      · rintro (h1 | h2)
        · exact Or.inl (Or.inr ((pairMem_iff_memLab e1.labels k x hnd1).mpr h1))
        · exact Or.inr ((pairMem_iff_memLab e2.labels k x hnd2).mpr h2)
    · rw [hlab]
      exact ValLab_mergeLabels e2.labels _
        (ValLab_mergeLabels e1.labels [] ValLab_nil)
  · decide

/-- C2, witness: the label-union theorem applied to the two concrete
documents; the merged value y comes from the second document. -/
theorem mergeEntity_label_union_witness :
    memLab (mergeEntity (dedupEntity c2e1) c2e2).labels "k" "y" ↔
      (memLab c2e1.labels "k" "y" ∨ memLab c2e2.labels "k" "y") :=
  (mergeEntity_label_union.1 c2e1 c2e2 rfl rfl (by decide) (by decide)
    (mergeEntity (dedupEntity c2e1) c2e2) (by decide)).1 "k" "y"

/-- C3.  For every Package P and resource R contained in it
(partOfPackage references P), the effective value computed by the
Inheritance Propagator for each list-valued inherited field equals the
deduplicated union of the package-declared and resource-declared
values: membership is membership in either list and the result is
duplicate-free.  In particular a package with tags [a] and a resource
with tags [b] give effective tags [a, b]. -/
theorem inheritance_effective_union :
    (∀ pkg res : Entity, res.partOfPackage = some pkg.ordId →
      ((∀ x, x ∈ effectiveTags pkg res ↔ (x ∈ pkg.tags ∨ x ∈ res.tags)) ∧
        (effectiveTags pkg res).Nodup) ∧
      ((∀ x, x ∈ effectiveCountries pkg res ↔
          (x ∈ pkg.countries ∨ x ∈ res.countries)) ∧
        (effectiveCountries pkg res).Nodup) ∧
      ((∀ x, x ∈ effectiveLineOfBusiness pkg res ↔
          (x ∈ pkg.lineOfBusiness ∨ x ∈ res.lineOfBusiness)) ∧
        (effectiveLineOfBusiness pkg res).Nodup) ∧
      ((∀ x, x ∈ effectiveIndustry pkg res ↔
          (x ∈ pkg.industry ∨ x ∈ res.industry)) ∧
        (effectiveIndustry pkg res).Nodup) ∧
      ((∀ x, x ∈ effectivePartOfProducts pkg res ↔
          (x ∈ pkg.partOfProducts ∨ x ∈ res.partOfProducts)) ∧
        (effectivePartOfProducts pkg res).Nodup)) ∧
    effectiveTags c3pkg c3res = ["a", "b"] := by
  constructor
  · intro pkg res _
    exact ⟨⟨fun x => mem_dedupUnion _ _ x, nodup_dedupUnion _ _⟩,
      ⟨fun x => mem_dedupUnion _ _ x, nodup_dedupUnion _ _⟩,
      ⟨fun x => mem_dedupUnion _ _ x, nodup_dedupUnion _ _⟩,
      ⟨fun x => mem_dedupUnion _ _ x, nodup_dedupUnion _ _⟩,
      ⟨fun x => mem_dedupUnion _ _ x, nodup_dedupUnion _ _⟩⟩
  · decide

/-- C3, witness: the inheritance theorem applied to the concrete
package and resource; the effective tag a is inherited from the
package. -/
theorem inheritance_effective_union_witness :
    "a" ∈ effectiveTags c3pkg c3res ↔ ("a" ∈ c3pkg.tags ∨ "a" ∈ c3res.tags) :=
  (inheritance_effective_union.1 c3pkg c3res rfl).1.1 "a"

/-- C5.  An entity with releaseStatus deprecated and no sunsetDate is
flagged with a LifecycleWarning by the Lifecycle Enforcer rather than
silently accepted (the check output is nonempty and names the missing
sunset date); and when a successor exists and successors is empty, the
missing successors are flagged as well. -/
theorem deprecated_requires_sunset (e : Entity) (successorExists : Bool)
    (hdep : e.releaseStatus = ReleaseStatus.deprecated) :
    (e.sunsetDate = none →
      LifecycleWarning.missingSunsetDate ∈ lifecycleCheck successorExists e ∧
      lifecycleCheck successorExists e ≠ []) ∧
    (successorExists = true → e.successors = [] →
      LifecycleWarning.missingSuccessors ∈ lifecycleCheck successorExists e) := by
  constructor
  · intro hs
    unfold lifecycleCheck
    rw [if_pos ⟨hdep, hs⟩]
    constructor
    · exact List.mem_append.mpr (Or.inl (List.mem_cons.mpr (Or.inl rfl)))
    · exact List.cons_ne_nil _ _
  · intro hb hsucc
    unfold lifecycleCheck
    refine List.mem_append.mpr (Or.inr ?_)
    rw [if_pos ⟨hdep, hb, hsucc⟩]
    exact List.mem_cons.mpr (Or.inl rfl)

/-- C5, witness: the deprecated concrete entity without sunsetDate is
flagged. -/
theorem deprecated_requires_sunset_witness :
    LifecycleWarning.missingSunsetDate ∈ lifecycleCheck true c5e ∧
    lifecycleCheck true c5e ≠ [] :=
  (deprecated_requires_sunset c5e true rfl).1 rfl

theorem lookupGraph_insert_isSome (g : List Entity) (e : Entity) (x : String)
    (h : (lookupGraph g x).isSome = true) :
    (lookupGraph (insertEntity g e) x).isSome = true := by
  rw [lookupGraph_insertEntity]
  by_cases hx : x = e.ordId
  · rw [if_pos hx]
    cases h1 : lookupGraph g e.ordId <;> simp
  · rw [if_neg hx]
    exact h

theorem lookupGraph_self_isSome (g : List Entity) (e : Entity) :
    (lookupGraph (insertEntity g e) e.ordId).isSome = true := by
  rw [lookupGraph_insertEntity, if_pos rfl]
  cases h1 : lookupGraph g e.ordId <;> simp

theorem lookupGraph_apply_isSome (batch : List Entity) :
    ∀ (g : List Entity) (x : String), (lookupGraph g x).isSome = true →
      (lookupGraph (applyEntities g batch) x).isSome = true := by
  induction batch with
  | nil => intro g x h; exact h
  | cons e t ih =>
    intro g x h
    rw [applyEntities_cons]
    exact ih (insertEntity g e) x (lookupGraph_insert_isSome g e x h)

theorem mem_apply_isSome (batch : List Entity) :
    ∀ (g : List Entity) (e : Entity), e ∈ batch →
      (lookupGraph (applyEntities g batch) e.ordId).isSome = true := by
  induction batch with
  | nil => intro g e he; exact absurd he (List.not_mem_nil e)
  | cons e1 t ih =>
    intro g e he
    rw [applyEntities_cons]
    rcases List.mem_cons.mp he with h | h
    · subst h
      exact lookupGraph_apply_isSome t (insertEntity g e) e.ordId
        (lookupGraph_self_isSome g e)
    · exact ih (insertEntity g e1) e h

theorem mem_graphOrdIds_of_apply (batch : List Entity) (g : List Entity)
    (e : Entity) (he : e ∈ batch) :
    e.ordId ∈ graphOrdIds (applyEntities g batch) := by
  obtain ⟨m, hm⟩ := Option.isSome_iff_exists.mp (mem_apply_isSome batch g e he)
  exact List.mem_map.mpr ⟨m, lookupGraph_some_mem _ _ _ hm,
    lookupGraph_some_ordId _ _ _ hm⟩

/-- C7.  A resource whose mandatory partOfPackage reference targets an
ordId present neither in the merged graph nor in the incoming batch is
reported as a ReferenceError; after a later batch supplies the target
Package, re-resolving the very same (not redescribed) resource against
the updated graph succeeds. -/
theorem dangling_reference_retry (g batch batch2 : List Entity)
    (r pkgE : Entity) (p : String)
    (href : r.partOfPackage = some p)
    (hg : p ∉ graphOrdIds g) (hb : p ∉ graphOrdIds batch)
    (hpkg : pkgE ∈ batch2) (hpid : pkgE.ordId = p) :
    resolvePartOfPackage g batch r = ResolutionResult.referenceError p ∧
    resolvePartOfPackage (applyEntities g batch2) [] r =
      ResolutionResult.resolved := by
  constructor
  · unfold resolvePartOfPackage
    rw [href]
    show (if p ∈ graphOrdIds g ∨ p ∈ graphOrdIds batch then
      ResolutionResult.resolved else ResolutionResult.referenceError p) =
      ResolutionResult.referenceError p
    rw [if_neg (fun hc => hc.elim hg hb)]
  · unfold resolvePartOfPackage
    rw [href]
    show (if p ∈ graphOrdIds (applyEntities g batch2) ∨ p ∈ graphOrdIds []
      then ResolutionResult.resolved else ResolutionResult.referenceError p) =
      ResolutionResult.resolved
    exact if_pos (Or.inl (hpid ▸ mem_graphOrdIds_of_apply batch2 g pkgE hpkg))

/-- C7, witness: the concrete API resource references the package
before it is known (ReferenceError) and resolves once a later batch
supplies the package. -/
theorem dangling_reference_retry_witness :
    resolvePartOfPackage [] [] exEntity =
      ResolutionResult.referenceError "ns:package:p:v1" ∧
    resolvePartOfPackage (applyEntities [] [c3pkg]) [] exEntity =
      ResolutionResult.resolved :=
  dangling_reference_retry [] [] [c3pkg] exEntity c3pkg "ns:package:p:v1"
    rfl (by decide) (by decide) (by decide) rfl

theorem applyTombstones_graph (ts : List Tombstone) :
    ∀ s : AggState, (ts.foldl applyTombstone s).graph = s.graph := by
  induction ts with
  | nil => intro s; rfl
  | cons t rest ih =>
    intro s
    show (rest.foldl applyTombstone (applyTombstone s t)).graph = s.graph
    rw [ih (applyTombstone s t)]
    rfl

theorem applyTombstones_no_key (ts : List Tombstone) :
    ∀ (s : AggState) (x : String),
      (∀ tb ∈ s.tombstones, tb.ordId ≠ x) → (∀ tb ∈ ts, tb.ordId ≠ x) →
      ∀ tb ∈ (ts.foldl applyTombstone s).tombstones, tb.ordId ≠ x := by
  induction ts with
  | nil => intro s x hs _ tb htb; exact hs tb htb
  | cons t rest ih =>
    intro s x hs hts
    show ∀ tb ∈ (rest.foldl applyTombstone (applyTombstone s t)).tombstones,
      tb.ordId ≠ x
    refine ih (applyTombstone s t) x ?_
      (fun tb htb => hts tb (List.mem_cons.mpr (Or.inr htb)))
    intro tb htb
    rcases List.mem_append.mp htb with h1 | h1
    · exact hs tb (List.mem_filter.mp h1).1
    · rcases List.mem_cons.mp h1 with h2 | h2
      · rw [h2]
        exact hts t (List.mem_cons.mpr (Or.inl rfl))
      · exact absurd h2 (List.not_mem_nil tb)

theorem isActive_eq_false_of_no_entity (s : AggState) (x : String)
    (h : ∀ m ∈ defaultView s, m.ordId ≠ x) : isActive s x = false := by
  unfold isActive
  rw [List.any_eq_false]
  intro m hm hc
  exact h m hm (by simpa using hc)

/-- C4.  Tombstone suppression and reinstatement: after a Tombstone for
ordId X is applied, X is excluded from the Query Facade's default view;
and if a later crawled document redescribes X (and does not tombstone
it again), X becomes active again in the default view - the explicit
republish-wins rule. -/
theorem tombstone_suppression_reinstatement (s : AggState) (t : Tombstone)
    (d : ORDDoc) :
    isActive (applyTombstone s t) t.ordId = false ∧
    ((∃ e ∈ d.entities, e.ordId = t.ordId) →
      (∀ tb ∈ d.tombstones, tb.ordId ≠ t.ordId) →
      isActive (applyDocToState (applyTombstone s t) d) t.ordId = true) := by
  constructor
  · apply isActive_eq_false_of_no_entity
    intro m hm hc
    have hmem := List.mem_filter.mp hm
    have hpred := hmem.2
    rw [Bool.not_eq_true'] at hpred
    rw [List.any_eq_false] at hpred
    refine hpred t ?_ (by simpa using hc.symm)
    show t ∈ (applyTombstone s t).tombstones
    exact List.mem_append.mpr (Or.inr (List.mem_cons.mpr (Or.inl rfl)))
  · rintro ⟨e, he, heid⟩ hnotomb
    set s1 := applyTombstone s t with hs1
    have hredes : redescribes d t.ordId = true := by
      unfold redescribes
      rw [List.any_eq_true]
      exact ⟨e, he, by simp [heid]⟩
    have hgraph : (applyDocToState s1 d).graph = applyEntities s1.graph d.entities :=
      applyTombstones_graph d.tombstones _
    have hts : ∀ tb ∈ (applyDocToState s1 d).tombstones, tb.ordId ≠ t.ordId := by
      refine applyTombstones_no_key d.tombstones _ t.ordId ?_ hnotomb
      intro tb htb
      have := List.mem_filter.mp htb
      intro hc
      rw [Bool.not_eq_true'] at this
      rw [hc, hredes] at this
      exact Bool.true_eq_false ▸ this.2.symm ▸ rfl
    obtain ⟨m, hm⟩ := Option.isSome_iff_exists.mp
      (mem_apply_isSome d.entities s1.graph e he)
    have hmmem : m ∈ (applyDocToState s1 d).graph := by
      rw [hgraph]
      exact lookupGraph_some_mem _ _ _ hm
    have hmid : m.ordId = t.ordId :=
      (lookupGraph_some_ordId _ _ _ hm).trans heid
    unfold isActive
    rw [List.any_eq_true]
    refine ⟨m, ?_, by simp [hmid]⟩
    unfold defaultView
    rw [List.mem_filter]
    refine ⟨hmmem, ?_⟩
    rw [Bool.not_eq_true']
    rw [List.any_eq_false]
    intro tb htb
    intro hc
    exact hts tb htb (by simpa [hmid] using hc)

/-- C4, witness: the suppression and reinstatement theorem applied to a
concrete state holding the example entity, the tombstone for it, and a
later document that redescribes it. -/
theorem tombstone_suppression_reinstatement_witness :
    isActive (applyTombstone ⟨[exEntity], []⟩ c4t) "ns:apiResource:x:v1" = false ∧
    isActive (applyDocToState (applyTombstone ⟨[exEntity], []⟩ c4t)
      ⟨[exEntity], []⟩) "ns:apiResource:x:v1" = true :=
  ⟨(tombstone_suppression_reinstatement ⟨[exEntity], []⟩ c4t ⟨[exEntity], []⟩).1,
   (tombstone_suppression_reinstatement ⟨[exEntity], []⟩ c4t ⟨[exEntity], []⟩).2
     ⟨exEntity, by decide, rfl⟩ (by decide)⟩

theorem companionRuleOk_iff (b : Bool) (o : Option String)
    (h : companionRuleOk b o = true) : (b = true ↔ o.isSome = true) := by
  unfold companionRuleOk at h
  cases b with
  | true =>
    rw [if_pos rfl] at h
    simp [h]
  | false =>
    rw [if_neg (by simp)] at h
    rw [Option.isNone_iff_eq_none] at h
    simp [h]

theorem isCustomAccessStrategyType_iff (ty : AccessStrategyType) :
    isCustomAccessStrategyType ty = true ↔ ty = AccessStrategyType.custom := by
  cases ty <;> simp [isCustomAccessStrategyType]

theorem isCustomAPIResourceDefinitionType_iff (ty : APIResourceDefinitionType) :
    isCustomAPIResourceDefinitionType ty = true ↔
      ty = APIResourceDefinitionType.custom := by
  cases ty <;> simp [isCustomAPIResourceDefinitionType]

/-- C6.  The Document Parser/Validator accepts an object carrying a
closed enum paired with a customType companion only if the companion is
present exactly when the enum value is custom: for both AccessStrategy
and APIResourceDefinition, acceptance implies that the enum is custom
iff customType is present (so customType is present when the enum is
custom and absent for every other value). -/
theorem custom_companion_rule (a : AccessStrategy) (d : APIResourceDefinition) :
    (validateAccessStrategy a = true →
      ((a.type = AccessStrategyType.custom) ↔ a.customType.isSome = true)) ∧
    (validateAPIResourceDefinition d = true →
      ((d.type = APIResourceDefinitionType.custom) ↔
        d.customType.isSome = true)) := by
  constructor
  · intro hv
    unfold validateAccessStrategy at hv
    simp only [Bool.and_eq_true] at hv
    exact (isCustomAccessStrategyType_iff a.type).symm.trans
      (companionRuleOk_iff _ _ hv.1)
  · intro hv
    unfold validateAPIResourceDefinition at hv
    simp only [Bool.and_eq_true] at hv
    exact (isCustomAPIResourceDefinitionType_iff d.type).symm.trans
      (companionRuleOk_iff _ _ hv.1.1)

/-- C6, witness: the companion rule holds of the two accepted concrete
objects. -/
theorem custom_companion_rule_witness :
    (c6a.type = AccessStrategyType.custom ↔ c6a.customType.isSome = true) ∧
    (c6d.type = APIResourceDefinitionType.custom ↔
      c6d.customType.isSome = true) :=
  ⟨(custom_companion_rule c6a c6d).1 (by decide),
   (custom_companion_rule c6a c6d).2 (by decide)⟩

/-- C9, counterexample.  DocumentationLabels does not accept every key:
its pattern ^.*$ rejects a key containing a line break (the dot does
not match a line terminator, and the Document.d.ts prose itself states
that a documentation label key MUST not contain line breaks). -/
theorem documentationLabels_key_rejects_line_break :
    documentationLabelsKeyMatches "a\nb" = false := by
  decide

/-- C9 (amended).  Every key of a Labels map must match
^[a-zA-Z0-9-_.]*$, while DocumentationLabels accepts any key free of
line terminators; hence every valid Labels key is also a valid
DocumentationLabels key, but not conversely: a key containing a space
or a slash is valid in documentationLabels and invalid in labels - the
two label map types do not share the same key domain. -/
theorem label_key_domains_differ :
    (∀ s : String, labelsKeyMatches s = true →
      documentationLabelsKeyMatches s = true) ∧
    (labelsKeyMatches "a b" = false ∧
      documentationLabelsKeyMatches "a b" = true) ∧
    (labelsKeyMatches "a/b" = false ∧
      documentationLabelsKeyMatches "a/b" = true) := by
  refine ⟨?_, by decide, by decide⟩
  intro s h
  unfold labelsKeyMatches at h
  unfold documentationLabelsKeyMatches
  rw [List.all_eq_true] at h ⊢
  intro c hc
  have h1 := h c hc
  simp only [isLabelsKeyChar, Bool.or_eq_true, Bool.and_eq_true,
    decide_eq_true_eq, beq_iff_eq] at h1
  show (!(isLineTerminator c)) = true
  rw [Bool.not_eq_true']
  cases hterm : isLineTerminator c with
  | false => rfl
  | true =>
    exfalso
    simp only [isLineTerminator, Bool.or_eq_true, beq_iff_eq] at hterm
    rcases h1 with ((((⟨hlo, hhi⟩ | ⟨hlo, hhi⟩) | ⟨hlo, hhi⟩) | hch) | hch) | hch
    · omega
    · omega
    · omega
    · rw [hch] at hterm
      exact absurd hterm (by decide)
    · rw [hch] at hterm
      exact absurd hterm (by decide)
    · rw [hch] at hterm
      exact absurd hterm (by decide)

/-- C9, witness: the domain-inclusion direction applied to the concrete
valid Labels key abc-1. -/
theorem label_key_domains_differ_witness :
    documentationLabelsKeyMatches "abc-1" = true :=
  label_key_domains_differ.1 "abc-1" (by decide)

/-- C10.  The declared openResourceDiscovery version is accepted iff it
is one of exactly the eight strings "1.0" through "1.7"; documents
declaring other version strings (for example "1.8", "0.9" or "2.0")
fail schema conformance and are rejected. -/
theorem spec_version_exact_set :
    (∀ d : ORDDocumentHeader,
      specVersionAccepted d = true ↔
        (d.openResourceDiscovery = "1.0" ∨ d.openResourceDiscovery = "1.1" ∨
         d.openResourceDiscovery = "1.2" ∨ d.openResourceDiscovery = "1.3" ∨
         d.openResourceDiscovery = "1.4" ∨ d.openResourceDiscovery = "1.5" ∨
         d.openResourceDiscovery = "1.6" ∨ d.openResourceDiscovery = "1.7")) ∧
    specVersionAccepted ⟨"1.8"⟩ = false ∧
    specVersionAccepted ⟨"0.9"⟩ = false ∧
    specVersionAccepted ⟨"2.0"⟩ = false := by
  refine ⟨?_, by decide, by decide, by decide⟩
  intro d
  unfold specVersionAccepted
  rw [show allowedSpecVersions.contains d.openResourceDiscovery =
    List.elem d.openResourceDiscovery allowedSpecVersions from rfl]
  rw [List.elem_iff]
  unfold allowedSpecVersions
  simp [List.mem_cons]
